import Mathlib

/-!
# Verification of the eclat-project frequent-itemset mining engines

Shallow embedding of the two mining engines (`src/eclat.py` class `Eclat`,
`src/apriori.py` class `Apriori`), of the rule generator
(`src/utils.py`, `generate_recommendation_rules`) and of the constructor
validation of `src/eclat_algo.py`.

Modelling conventions:
* items are drawn from an arbitrary linearly ordered type `α` (Python items
  are hashable and comparable labels);
* a transaction is a `List α`; Python transactions are sets, so theorems that
  need it carry the hypothesis that each transaction has no duplicates;
* a Python `set` of transaction ids is a `Finset ℕ`; a Python dict is an
  association list in key-insertion order (last assignment wins on lookup);
* Python floats are modelled by `ℚ`;
* Python's `sorted` / `list.sort` are modelled by `List.insertionSort`
  (a stable structural-recursive sort);
* the recursion of `_eclat_recursive` and the level loop of `Apriori.fit`
  terminate on a structural bound of the input; they are written with an
  explicit fuel argument, and every entry point passes fuel that provably
  suffices (the fuel-exhausted branch is unreachable there);
* a raised Python exception is the `Except.error` branch of an `Except`
  result, and every Python division is the checked division `pydiv`.
-/

attribute [local semireducible] Rat.mul Rat.inv

deriving instance DecidableEq for Except

set_option linter.unusedSectionVars false

namespace EclatProject

variable {α : Type} [LinearOrder α]

/-- The transaction-id set of the itemset `T`: indices of the transactions of
`ds` that contain every item of `T`. -/
def coverF (ds : List (List α)) (T : Finset α) : Finset ℕ :=
  (Finset.range ds.length).filter (fun i => ∀ a ∈ T, a ∈ ds.getD i [])

/-- `coverF` on an itemset given as a list. -/
def coverL (ds : List (List α)) (l : List α) : Finset ℕ := coverF ds l.toFinset

/-- Number of transactions of `ds` containing every item of `T`. -/
def nContaining (ds : List (List α)) (T : Finset α) : ℕ :=
  (ds.filter (fun t => decide (∀ a ∈ T, a ∈ t))).length

/-- All items occurring in some transaction of `ds`. -/
def allItems (ds : List (List α)) : Finset α := (ds.flatMap id).toFinset

namespace Eclat

/-- One update of the vertical index: `tid_dict[item].add(tid)`, creating the
entry (at the end, as Python dict insertion does) when absent. -/
def addTid (m : List (α × Finset ℕ)) (it : α) (tid : ℕ) : List (α × Finset ℕ) :=
  if it ∈ m.map Prod.fst then
    m.map (fun p => if p.1 = it then (p.1, insert tid p.2) else p)
  else m ++ [(it, {tid})]

/-- The vertical index of `Eclat.fit` step 2: for each `tid, transaction` in
`enumerate(dataset)` and each `item` in the transaction, add `tid` to
`tid_dict[item]`. -/
def tid_dict (ds : List (List α)) : List (α × Finset ℕ) :=
  ds.enum.foldl (fun m p => p.2.foldl (fun m' it => addTid m' it p.1) m) []

/-- The filtered candidate list built inside `_eclat_recursive`: intersect the
TID-set of the current item with each later item's TID-set and keep the pair
when the intersection reaches the support threshold. -/
def nextItems (min_sup : ℚ) (tids : Finset ℕ) (items : List (α × Finset ℕ)) :
    List (α × Finset ℕ) :=
  items.filterMap (fun q =>
    let new_tids := tids ∩ q.2
    if min_sup ≤ (new_tids.card : ℚ) then some (q.1, new_tids) else none)

/-- `Eclat._eclat_recursive`.  The Python `while` loop pops the head of
`items`, records `prefix + [item]` when it is long enough, recurses into the
filtered candidate list, and continues with the remaining items; the appends
to `self.frequent_itemsets` happen in exactly this order.  `fuel` bounds the
recursion depth structurally; every call below passes enough fuel. -/
def eclatRecursive (min_items : ℕ) (min_sup : ℚ) :
    ℕ → List α → List (α × Finset ℕ) → List (List α × ℕ)
  | 0, _, _ => []
  | _ + 1, _, [] => []
  | fuel + 1, pre, (it, tids) :: rest =>
    let new_itemset := pre ++ [it]
    (if min_items ≤ new_itemset.length then [(new_itemset, tids.card)] else []) ++
      eclatRecursive min_items min_sup fuel new_itemset (nextItems min_sup tids rest) ++
      eclatRecursive min_items min_sup fuel pre rest

/-- `Eclat.fit` after the absolute threshold `min_sup = N * min_support` has
been computed: build the vertical index, keep the frequent 1-itemsets, sort
them by descending TID-set size (Python's stable `list.sort` with
`reverse=True`) and run the recursion. -/
def fitAux (min_sup : ℚ) (min_items : ℕ) (ds : List (List α)) : List (List α × ℕ) :=
  let sorted_items :=
    List.insertionSort (fun p q : α × Finset ℕ => q.2.card ≤ p.2.card)
      ((tid_dict ds).filter (fun p => min_sup ≤ (p.2.card : ℚ)))
  eclatRecursive min_items min_sup sorted_items.length [] sorted_items

/-- `Eclat.fit` of `src/eclat.py`: compute `min_sup = len(dataset) *
self.min_support` and mine. -/
def fit (min_support : ℚ) (min_items : ℕ) (ds : List (List α)) : List (List α × ℕ) :=
  fitAux ((ds.length : ℚ) * min_support) min_items ds

end Eclat

/-- Keys of a Python dict in insertion order: first occurrences, in order. -/
def firstDedup (l : List β) [DecidableEq β] : List β :=
  l.foldl (fun acc a => if a ∈ acc then acc else acc ++ [a]) []

namespace Apriori

/-- The stream of single-item occurrences scanned by the first pass of
`Apriori.fit` (`for trans in dataset: for item in trans`). -/
def itemOccs (ds : List (List α)) : List α := ds.flatMap id

/-- `item_counts` of `Apriori.fit`: a `defaultdict(int)` keyed by the
singleton `frozenset([item])`, iterated in key-insertion order, whose value is
the number of occurrences of the item in the scan. -/
def item_counts (ds : List (List α)) : List (α × ℕ) :=
  (firstDedup (itemOccs ds)).map (fun a => (a, (itemOccs ds).count a))

/-- The frequent 1-itemset entries (`count >= min_sup_count`), in
`item_counts.items()` order. -/
def L1freq (min_sup_count : ℚ) (ds : List (List α)) : List (α × ℕ) :=
  (item_counts ds).filter (fun p => min_sup_count ≤ (p.2 : ℚ))

/-- Dropping the item at position `i` of `candidate`
(`candidate[:i] + candidate[i+1:]`). -/
def dropAt (cand : List α) (i : ℕ) : List α := cand.take i ++ cand.drop (i + 1)

/-- `Apriori._has_infrequent_subset`: some size-(k-1) subset of `candidate`
(obtained by removing the item at one of the positions `0..k-1`) is not in
`L_prev`. -/
def has_infrequent_subset (cand : List α) (L_prev : List (List α)) (k : ℕ) : Prop :=
  ∃ i < k, dropAt cand i ∉ L_prev

instance (cand : List α) (L_prev : List (List α)) (k : ℕ) :
    Decidable (has_infrequent_subset cand L_prev k) :=
  inferInstanceAs (Decidable (∃ i < k, dropAt cand i ∉ L_prev))

/-- The inner `j` loop of `Apriori._apriori_gen` for a fixed `l1`, running over
the members after `l1`; it joins while the `k-2` prefixes agree and `break`s at
the first mismatch.  `l2[k-2]` is modelled as `(l2.drop (k-2)).take 1` (the
one-element list holding the item at index `k-2`; out-of-range indexing, which
would raise in Python, cannot occur for the length-(k-1) members the engine
passes). -/
def genInner (L_prev : List (List α)) (k : ℕ) (l1 : List α) :
    List (List α) → List (List α)
  | [] => []
  | l2 :: rest =>
    if l1.take (k - 2) = l2.take (k - 2) then
      let candidate := l1 ++ (l2.drop (k - 2)).take 1
      (if has_infrequent_subset candidate L_prev k then [] else [candidate]) ++
        genInner L_prev k l1 rest
    else []

/-- The outer `i` loop of `Apriori._apriori_gen`: each member `l1` is joined
against the members after it. -/
def genOuter (L_prev : List (List α)) (k : ℕ) : List (List α) → List (List α)
  | [] => []
  | l1 :: rest => genInner L_prev k l1 rest ++ genOuter L_prev k rest

/-- `Apriori._apriori_gen`: candidate generation by join over the sorted
`L_prev` with prune against `set(L_prev)`. -/
def apriori_gen (L_prev : List (List α)) (k : ℕ) : List (List α) :=
  genOuter L_prev k L_prev

/-- The size-`k` combinations of a transaction scanned when counting
candidates: `combinations(sorted(list(trans)), k)` filtered to members of
`C_k` (transactions shorter than `k` are skipped). -/
def transOccs (C_k : List (List α)) (k : ℕ) (t : List α) : List (List α) :=
  if t.length < k then []
  else (List.sublistsLen k (List.insertionSort (· ≤ ·) t)).filter
    (fun c => decide (c ∈ C_k))

/-- The stream of counted candidate occurrences over the whole dataset. -/
def levelOccs (ds : List (List α)) (C_k : List (List α)) (k : ℕ) : List (List α) :=
  ds.flatMap (transOccs C_k k)

/-- `candidates_counts` of `Apriori.fit`: a `defaultdict(int)` in key-insertion
order; a candidate appears iff it occurs in some transaction, with its total
occurrence count. -/
def candidates_counts (ds : List (List α)) (C_k : List (List α)) (k : ℕ) :
    List (List α × ℕ) :=
  (firstDedup (levelOccs ds C_k k)).map
    (fun c => (c, (levelOccs ds C_k k).count c))

/-- The `while L_current` loop of `Apriori.fit` starting at level `k`:
generate `C_k`, count it, emit the frequent members of size `>= min_items`
(all size-`k` members, so the gate is `min_items <= k`), and move to level
`k+1` with the sorted frequent list.  `fuel` bounds the number of levels
structurally; `fit` passes enough fuel for the loop to reach its natural
exit. -/
def levelLoop (ds : List (List α)) (min_items : ℕ) (min_sup_count : ℚ) :
    ℕ → ℕ → List (List α) → List (List α × ℕ)
  | 0, _, _ => []
  | fuel + 1, k, L_current =>
    if L_current.isEmpty then []
    else
      let C_k := apriori_gen L_current k
      if C_k.isEmpty then []
      else
        let freqs := (candidates_counts ds C_k k).filter
          (fun p => min_sup_count ≤ (p.2 : ℚ))
        (if min_items ≤ k then freqs else []) ++
          levelLoop ds min_items min_sup_count fuel (k + 1)
            (List.insertionSort (· ≤ ·) (freqs.map Prod.fst))

/-- Length of the longest transaction; frequent itemsets at level `k` are
contained in some transaction, so the level loop is exhausted after at most
`maxTransLen + 2` levels. -/
def maxTransLen (ds : List (List α)) : ℕ := ds.foldr (fun t m => max t.length m) 0

/-- `Apriori.fit` after `min_sup_count = N * min_support` has been computed:
the L1 scan emits the frequent single items (in dict order, subject to the
`min_items` gate), then the level loop runs from `k = 2` on the sorted
frequent 1-itemsets. -/
def fitAux (min_sup_count : ℚ) (min_items : ℕ) (ds : List (List α)) :
    List (List α × ℕ) :=
  (if min_items ≤ 1 then (L1freq min_sup_count ds).map (fun p => ([p.1], p.2)) else []) ++
    levelLoop ds min_items min_sup_count (maxTransLen ds + 2) 2
      (List.insertionSort (· ≤ ·) ((L1freq min_sup_count ds).map (fun p => [p.1])))

/-- `Apriori.fit` of `src/apriori.py`. -/
def fit (min_support : ℚ) (min_items : ℕ) (ds : List (List α)) : List (List α × ℕ) :=
  fitAux ((ds.length : ℚ) * min_support) min_items ds


end Apriori

/-- `Eclat.__init__` of `src/eclat_algo.py`: raises `ValueError` unless
`0 <= min_support <= 1`, otherwise stores the configuration. -/
def EclatAlgo.init (min_support : ℚ) (min_items : ℕ) : Except String (ℚ × ℕ) :=
  if 0 ≤ min_support ∧ min_support ≤ 1 then .ok (min_support, min_items)
  else .error "ValueError"

/-- `Eclat.__init__` of `src/eclat.py`: stores the configuration without any
validation. -/
def Eclat.init (min_support : ℚ) (min_items : ℕ) : Except String (ℚ × ℕ) :=
  .ok (min_support, min_items)

/-- `Apriori.__init__` of `src/apriori.py`: stores the configuration without
any validation. -/
def Apriori.init (min_support : ℚ) (min_items : ℕ) : Except String (ℚ × ℕ) :=
  .ok (min_support, min_items)

namespace Utils

/-- An association rule as produced by `generate_recommendation_rules`. -/
structure Rule (α : Type) where
  antecedent : List α
  consequent : List α
  support : ℚ
  confidence : ℚ
  lift : ℚ
deriving DecidableEq, Repr

/-- Python's `/` : raises `ZeroDivisionError` on a zero denominator. -/
def pydiv (a b : ℚ) : Except String ℚ :=
  if b = 0 then .error "ZeroDivisionError" else .ok (a / b)

/-- `tuple(sorted(l))`. -/
def sortKey (l : List α) : List α := List.insertionSort (· ≤ ·) l

/-- The `support_lookup` dict keyed by the sorted item tuple.  Python dict
assignment is modelled by an association list where the last binding of a key
wins. -/
def support_lookup (fis : List (List α × ℕ)) : List (List α × ℕ) :=
  fis.map (fun p => (sortKey p.1, p.2))

/-- `dict.get`: the value of the last binding of `key`, if any. -/
def lookupGet (tbl : List (List α × ℕ)) (key : List α) : Option ℕ :=
  (tbl.reverse.find? (fun p => decide (p.1 = key))).map Prod.snd

/-- The body of the antecedent loop of `generate_recommendation_rules` for one
candidate antecedent of one frequent itemset: a missing antecedent lookup
skips the split (`continue`); the confidence division is guarded by
`support_A > 0`; a missing or zero (falsy) consequent lookup yields `lift = 0`,
and the lift division is guarded by `support_B > 0`; the rule is kept iff
`confidence >= min_confidence`. -/
def processSplit (tbl : List (List α × ℕ)) (total_transactions : ℕ)
    (min_confidence : ℚ) (itemset : List α) (support_AB : ℚ)
    (antecedent : List α) : Except String (Option (Rule α)) := do
  let consequent := itemset.filter (fun x => decide (x ∉ antecedent))
  match lookupGet tbl (sortKey antecedent) with
  | none => pure none
  | some support_count_A => do
    let support_A ← pydiv (support_count_A : ℚ) (total_transactions : ℚ)
    let confidence ← if 0 < support_A then pydiv support_AB support_A else pure 0
    let lift ← match lookupGet tbl (sortKey consequent) with
      | some support_count_B =>
        if support_count_B ≠ 0 then do
          let support_B ← pydiv (support_count_B : ℚ) (total_transactions : ℚ)
          if 0 < support_B then pydiv confidence support_B else pure (0 : ℚ)
        else pure 0
      | none => pure 0
    pure (if min_confidence ≤ confidence then
      some ⟨antecedent, consequent, support_AB, confidence, lift⟩ else none)

/-- The body of the outer loop of `generate_recommendation_rules` for one
frequent itemset: itemsets of size `< 2` are skipped, otherwise
`support_AB = support_count_AB / total_transactions` is computed and every
non-empty proper sub-combination of the itemset is tried as an antecedent. -/
def rulesFor (tbl : List (List α × ℕ)) (total_transactions : ℕ)
    (min_confidence : ℚ) (itemset : List α) (support_count_AB : ℕ) :
    Except String (List (Rule α)) :=
  if itemset.length < 2 then pure []
  else do
    let support_AB ← pydiv (support_count_AB : ℚ) (total_transactions : ℚ)
    let all_antecedents :=
      (List.range' 1 (itemset.length - 1)).flatMap
        (fun r => List.sublistsLen r itemset)
    let opts ← all_antecedents.mapM
      (processSplit tbl total_transactions min_confidence itemset support_AB)
    pure opts.reduceOption

/-- The final ordering of the rule list: descending by lift, ties broken by
descending confidence. -/
def ruleOrder (a b : Rule α) : Prop :=
  b.lift < a.lift ∨ (b.lift = a.lift ∧ b.confidence ≤ a.confidence)

instance : @DecidableRel (Rule α) (ruleOrder) := fun a b =>
  inferInstanceAs
    (Decidable (b.lift < a.lift ∨ (b.lift = a.lift ∧ b.confidence ≤ a.confidence)))

/-- `generate_recommendation_rules` of `src/utils.py`. -/
def generate_recommendation_rules (fis : List (List α × ℕ))
    (total_transactions : ℕ) (min_confidence : ℚ) :
    Except String (List (Rule α)) := do
  let tbl := support_lookup fis
  let rss ← fis.mapM
    (fun p => rulesFor tbl total_transactions min_confidence p.1 p.2)
  pure (List.insertionSort ruleOrder rss.flatten)

end Utils

/-! ## Generic helper lemmas -/

section Helpers

variable {β : Type} [DecidableEq β]

theorem firstDedup_go_mem (l acc : List β) (a : β) :
    a ∈ l.foldl (fun acc b => if b ∈ acc then acc else acc ++ [b]) acc ↔
      a ∈ acc ∨ a ∈ l := by
  induction l generalizing acc with
  | nil => simp
  | cons b l ih =>
    simp only [List.foldl_cons, ih, List.mem_cons]
    by_cases hb : b ∈ acc
    · simp only [if_pos hb]
      constructor
      · rintro (h | h)
        · exact Or.inl h
        · exact Or.inr (Or.inr h)
      · rintro (h | rfl | h)
        · exact Or.inl h
        · exact Or.inl hb
        · exact Or.inr h
    · simp only [if_neg hb, List.mem_append, List.mem_singleton]
      tauto

theorem mem_firstDedup (l : List β) (a : β) : a ∈ firstDedup l ↔ a ∈ l := by
  unfold firstDedup
  rw [firstDedup_go_mem]
  simp

theorem firstDedup_go_nodup (l : List β) (acc : List β) (h : acc.Nodup) :
    (l.foldl (fun acc b => if b ∈ acc then acc else acc ++ [b]) acc).Nodup := by
  induction l generalizing acc with
  | nil => exact h
  | cons b l ih =>
    simp only [List.foldl_cons]
    by_cases hb : b ∈ acc
    · rw [if_pos hb]; exact ih acc h
    · rw [if_neg hb]
      refine ih _ ?_
      simp [List.nodup_append, h, hb]

theorem nodup_firstDedup (l : List β) : (firstDedup l).Nodup :=
  firstDedup_go_nodup l [] List.nodup_nil

end Helpers

section CoverLemmas

variable {α : Type} [LinearOrder α]

theorem mem_coverF {ds : List (List α)} {T : Finset α} {i : ℕ} :
    i ∈ coverF ds T ↔ i < ds.length ∧ ∀ a ∈ T, a ∈ ds.getD i [] := by
  simp [coverF, Finset.mem_filter, Finset.mem_range]

theorem coverF_anti {ds : List (List α)} {T S : Finset α} (h : T ⊆ S) :
    coverF ds S ⊆ coverF ds T := by
  intro i hi
  rw [mem_coverF] at hi ⊢
  exact ⟨hi.1, fun a ha => hi.2 a (h ha)⟩

theorem coverF_union (ds : List (List α)) (T S : Finset α) :
    coverF ds (T ∪ S) = coverF ds T ∩ coverF ds S := by
  ext i
  simp only [mem_coverF, Finset.mem_inter, Finset.mem_union]
  constructor
  · intro h
    exact ⟨⟨h.1, fun a ha => h.2 a (Or.inl ha)⟩, ⟨h.1, fun a ha => h.2 a (Or.inr ha)⟩⟩
  · rintro ⟨h1, h2⟩
    exact ⟨h1.1, fun a ha => ha.elim (h1.2 a) (h2.2 a)⟩

theorem coverF_card_le (ds : List (List α)) (T : Finset α) :
    (coverF ds T).card ≤ ds.length := by
  simpa using Finset.card_le_card (Finset.filter_subset _ (Finset.range ds.length))

theorem coverL_append (ds : List (List α)) (l₁ l₂ : List α) :
    coverL ds (l₁ ++ l₂) = coverL ds l₁ ∩ coverL ds l₂ := by
  simp only [coverL, List.toFinset_append, coverF_union]

theorem coverF_nonempty_iff {ds : List (List α)} {T : Finset α} :
    (coverF ds T).Nonempty ↔ ∃ t ∈ ds, ∀ a ∈ T, a ∈ t := by
  constructor
  · rintro ⟨i, hi⟩
    rw [mem_coverF] at hi
    refine ⟨ds.getD i [], ?_, hi.2⟩
    rw [List.getD_eq_getElem _ _ hi.1]
    exact List.getElem_mem hi.1
  · rintro ⟨t, ht, hall⟩
    obtain ⟨i, hi, rfl⟩ := List.mem_iff_getElem.mp ht
    exact ⟨i, mem_coverF.mpr ⟨hi, by rw [List.getD_eq_getElem _ _ hi]; exact hall⟩⟩

theorem mem_coverF_append_singleton {ds : List (List α)} {t : List α}
    {T : Finset α} {i : ℕ} :
    i ∈ coverF (ds ++ [t]) T ↔
      i ∈ coverF ds T ∨ (i = ds.length ∧ ∀ a ∈ T, a ∈ t) := by
  simp only [mem_coverF, List.length_append, List.length_singleton]
  constructor
  · rintro ⟨hi, hall⟩
    by_cases hlt : i < ds.length
    · exact Or.inl ⟨hlt, by rwa [List.getD_append _ _ _ _ hlt] at hall⟩
    · have hieq : i = ds.length := by omega
      subst hieq
      refine Or.inr ⟨rfl, ?_⟩
      have : (ds ++ [t]).getD ds.length [] = t := by
        rw [List.getD_append_right _ _ _ _ le_rfl]
        simp
      rwa [this] at hall
  · rintro (⟨hlt, hall⟩ | ⟨rfl, hall⟩)
    · exact ⟨by omega, by rwa [List.getD_append _ _ _ _ hlt]⟩
    · refine ⟨by omega, ?_⟩
      have : (ds ++ [t]).getD ds.length [] = t := by
        rw [List.getD_append_right _ _ _ _ le_rfl]
        simp
      rwa [this]

theorem card_coverF (ds : List (List α)) (T : Finset α) :
    (coverF ds T).card = nContaining ds T := by
  induction ds using List.reverseRecOn with
  | nil => simp [coverF, nContaining]
  | append_singleton ds t ih =>
    have hnotmem : ds.length ∉ coverF ds T := by
      intro hmem
      rw [mem_coverF] at hmem
      omega
    have hsplit : coverF (ds ++ [t]) T =
        if (∀ a ∈ T, a ∈ t) then insert ds.length (coverF ds T) else coverF ds T := by
      by_cases hp : ∀ a ∈ T, a ∈ t
      · rw [if_pos hp]
        ext i
        rw [mem_coverF_append_singleton, Finset.mem_insert]
        constructor
        · rintro (h | ⟨rfl, _⟩)
          · exact Or.inr h
          · exact Or.inl rfl
        · rintro (rfl | h)
          · exact Or.inr ⟨rfl, hp⟩
          · exact Or.inl h
      · rw [if_neg hp]
        ext i
        rw [mem_coverF_append_singleton]
        constructor
        · rintro (h | ⟨_, hall⟩)
          · exact h
          · exact absurd hall hp
        · exact Or.inl
    have hnc : nContaining (ds ++ [t]) T =
        nContaining ds T + (if (∀ a ∈ T, a ∈ t) then 1 else 0) := by
      simp only [nContaining, List.filter_append, List.length_append]
      by_cases hp : ∀ a ∈ T, a ∈ t
      · rw [List.filter_singleton, decide_eq_true hp, if_pos hp]
        rfl
      · rw [List.filter_singleton, decide_eq_false hp, if_neg hp]
        rfl
    rw [hsplit, hnc]
    by_cases hp : ∀ a ∈ T, a ∈ t
    · rw [if_pos hp, if_pos hp, Finset.card_insert_of_not_mem hnotmem, ih]
    · rw [if_neg hp, if_neg hp, ih]
      omega

theorem mem_allItems {ds : List (List α)} {a : α} :
    a ∈ allItems ds ↔ ∃ t ∈ ds, a ∈ t := by
  simp [allItems, List.mem_flatMap]

theorem coverF_singleton_nonempty_iff {ds : List (List α)} {a : α} :
    (coverF ds {a}).Nonempty ↔ a ∈ allItems ds := by
  rw [coverF_nonempty_iff, mem_allItems]
  simp

end CoverLemmas

/-! ## Correctness of the vertical-index builder -/

namespace Eclat

variable {α : Type} [LinearOrder α]

/-- The TID-set bound to item `a` in the association list `m` (`∅` when
absent). -/
def dval (m : List (α × Finset ℕ)) (a : α) : Finset ℕ :=
  ((m.find? (fun p => decide (p.1 = a))).map Prod.snd).getD ∅

theorem dval_addTid (m : List (α × Finset ℕ)) (it : α) (tid : ℕ) (a : α) :
    dval (addTid m it tid) a =
      if a = it then insert tid (dval m it) else dval m a := by
  unfold addTid
  by_cases hmem : it ∈ m.map Prod.fst
  · rw [if_pos hmem]
    have hkey : ∀ p : α × Finset ℕ,
        ((fun p : α × Finset ℕ => decide (p.1 = a)) ∘
          (fun p : α × Finset ℕ => if p.1 = it then (p.1, insert tid p.2) else p)) p =
        decide (p.1 = a) := by
      intro p
      by_cases hp : p.1 = it <;> simp [hp]
    rw [dval, List.find?_map, funext hkey]
    rcases hfind : m.find? (fun p => decide (p.1 = a)) with _ | q
    · have hne : a ≠ it := by
        rintro rfl
        rw [List.find?_eq_none] at hfind
        obtain ⟨p, hp, hpit⟩ := List.exists_of_mem_map hmem
        exact hfind p hp (by simp [hpit])
      rw [hfind, if_neg hne, dval, hfind]
      rfl
    · have hq : q.1 = a := by simpa using List.find?_some hfind
      rw [hfind]
      by_cases hait : a = it
      · subst hait
        rw [if_pos rfl, dval, hfind]
        simp [hq]
      · rw [if_neg hait, dval, hfind]
        have hqit : ¬ q.1 = it := by rw [hq]; exact hait
        simp [hqit]
  · rw [if_neg hmem]
    have hnone : m.find? (fun p => decide (p.1 = it)) = none := by
      rw [List.find?_eq_none]
      intro p hp hpit
      exact hmem (List.mem_map.mpr ⟨p, hp, by simpa using hpit⟩)
    by_cases hait : a = it
    · subst hait
      rw [if_pos rfl]
      rw [dval, dval, List.find?_append, hnone]
      simp
    · rw [if_neg hait]
      rw [dval, dval, List.find?_append]
      have h2 : List.find? (fun p : α × Finset ℕ => decide (p.1 = a)) [(it, {tid})] = none := by
        rw [List.find?_eq_none]
        intro p hp
        simp only [List.mem_singleton] at hp
        subst hp
        simp [Ne.symm hait]
      rw [h2, Option.or_none]

theorem addTid_keys (m : List (α × Finset ℕ)) (it : α) (tid : ℕ) :
    (addTid m it tid).map Prod.fst =
      if it ∈ m.map Prod.fst then m.map Prod.fst else m.map Prod.fst ++ [it] := by
  unfold addTid
  by_cases hmem : it ∈ m.map Prod.fst
  · rw [if_pos hmem, if_pos hmem, List.map_map]
    refine List.map_congr_left ?_
    intro p _
    by_cases hp : p.1 = it <;> simp [hp]
  · rw [if_neg hmem, if_neg hmem]
    simp

theorem addTid_keys_nodup {m : List (α × Finset ℕ)} (it : α) (tid : ℕ)
    (h : (m.map Prod.fst).Nodup) : ((addTid m it tid).map Prod.fst).Nodup := by
  rw [addTid_keys]
  by_cases hmem : it ∈ m.map Prod.fst
  · rwa [if_pos hmem]
  · rw [if_neg hmem]
    simp [List.nodup_append, h, hmem]

theorem dval_transFold (t : List α) (tid : ℕ) (m : List (α × Finset ℕ)) (a : α) :
    dval (t.foldl (fun m' it => addTid m' it tid) m) a =
      if a ∈ t then insert tid (dval m a) else dval m a := by
  induction t generalizing m with
  | nil => simp
  | cons it t ih =>
    simp only [List.foldl_cons]
    rw [ih]
    by_cases hat : a ∈ t
    · rw [if_pos hat, if_pos (List.mem_cons.mpr (Or.inr hat)), dval_addTid]
      by_cases hait : a = it
      · subst hait
        rw [if_pos rfl, Finset.insert_idem]
      · rw [if_neg hait]
    · rw [if_neg hat, dval_addTid]
      by_cases hait : a = it
      · subst hait
        rw [if_pos rfl, if_pos (List.mem_cons.mpr (Or.inl rfl))]
      · rw [if_neg hait, if_neg (by simp [hait, hat])]

theorem keys_transFold_mem (t : List α) (tid : ℕ) (m : List (α × Finset ℕ)) (a : α) :
    a ∈ (t.foldl (fun m' it => addTid m' it tid) m).map Prod.fst ↔
      a ∈ m.map Prod.fst ∨ a ∈ t := by
  induction t generalizing m with
  | nil => simp
  | cons it t ih =>
    simp only [List.foldl_cons]
    rw [ih, addTid_keys]
    by_cases hmem : it ∈ m.map Prod.fst
    · rw [if_pos hmem]
      constructor
      · rintro (h | h)
        · exact Or.inl h
        · exact Or.inr (List.mem_cons.mpr (Or.inr h))
      · rintro (h | h)
        · exact Or.inl h
        · rcases List.mem_cons.mp h with rfl | h
          · exact Or.inl hmem
          · exact Or.inr h
    · rw [if_neg hmem]
      simp only [List.mem_append, List.mem_singleton, List.mem_cons]
      tauto

theorem keys_transFold_nodup (t : List α) (tid : ℕ) {m : List (α × Finset ℕ)}
    (h : (m.map Prod.fst).Nodup) :
    ((t.foldl (fun m' it => addTid m' it tid) m).map Prod.fst).Nodup := by
  induction t generalizing m with
  | nil => exact h
  | cons it t ih =>
    simp only [List.foldl_cons]
    exact ih (addTid_keys_nodup it tid h)

theorem dval_scan (l : List (ℕ × List α)) (m : List (α × Finset ℕ)) (a : α) :
    dval (l.foldl (fun m p => p.2.foldl (fun m' it => addTid m' it p.1) m) m) a =
      dval m a ∪ (l.filterMap (fun p => if a ∈ p.2 then some p.1 else none)).toFinset := by
  induction l generalizing m with
  | nil => simp
  | cons p l ih =>
    simp only [List.foldl_cons]
    rw [ih, dval_transFold]
    by_cases hap : a ∈ p.2
    · rw [if_pos hap]
      have hcons : List.filterMap (fun q : ℕ × List α => if a ∈ q.2 then some q.1 else none)
          (p :: l) = p.1 ::
            List.filterMap (fun q : ℕ × List α => if a ∈ q.2 then some q.1 else none) l := by
        simp [List.filterMap_cons, hap]
      rw [hcons, List.toFinset_cons, Finset.insert_union, Finset.union_insert]
    · rw [if_neg hap]
      have hcons : List.filterMap (fun q : ℕ × List α => if a ∈ q.2 then some q.1 else none)
          (p :: l) =
            List.filterMap (fun q : ℕ × List α => if a ∈ q.2 then some q.1 else none) l := by
        simp [List.filterMap_cons, hap]
      rw [hcons]

theorem keys_scan_mem (l : List (ℕ × List α)) (m : List (α × Finset ℕ)) (a : α) :
    a ∈ (l.foldl (fun m p => p.2.foldl (fun m' it => addTid m' it p.1) m) m).map Prod.fst ↔
      a ∈ m.map Prod.fst ∨ ∃ p ∈ l, a ∈ p.2 := by
  induction l generalizing m with
  | nil => simp
  | cons p l ih =>
    simp only [List.foldl_cons]
    rw [ih, keys_transFold_mem]
    simp only [List.mem_cons]
    constructor
    · rintro ((h | h) | ⟨q, hq, hA⟩)
      · exact Or.inl h
      · exact Or.inr ⟨p, Or.inl rfl, h⟩
      · exact Or.inr ⟨q, Or.inr hq, hA⟩
    · rintro (h | ⟨q, (rfl | hq), hA⟩)
      · exact Or.inl (Or.inl h)
      · exact Or.inl (Or.inr hA)
      · exact Or.inr ⟨q, hq, hA⟩

theorem keys_scan_nodup (l : List (ℕ × List α)) {m : List (α × Finset ℕ)}
    (h : (m.map Prod.fst).Nodup) :
    ((l.foldl (fun m p => p.2.foldl (fun m' it => addTid m' it p.1) m) m).map Prod.fst).Nodup := by
  induction l generalizing m with
  | nil => exact h
  | cons p l ih =>
    simp only [List.foldl_cons]
    exact ih (keys_transFold_nodup p.2 p.1 h)

theorem dval_tid_dict (ds : List (List α)) (a : α) :
    dval (tid_dict ds) a = coverF ds {a} := by
  unfold tid_dict
  rw [dval_scan]
  have hbase : dval ([] : List (α × Finset ℕ)) a = ∅ := rfl
  rw [hbase, Finset.empty_union]
  ext i
  simp only [List.mem_toFinset, List.mem_filterMap, mem_coverF, Finset.mem_singleton]
  constructor
  · rintro ⟨⟨j, t⟩, hp, hpi⟩
    by_cases hap : a ∈ t
    · rw [if_pos hap] at hpi
      obtain rfl := Option.some.inj hpi
      rw [List.mem_enum_iff_getElem?] at hp
      have hlt : j < ds.length := by
        by_contra hge
        rw [List.getElem?_eq_none (by omega)] at hp
        exact Option.noConfusion hp
      refine ⟨hlt, ?_⟩
      intro b hb
      obtain rfl := hb
      rw [List.getD_eq_getElem _ _ hlt]
      rw [List.getElem?_eq_getElem hlt] at hp
      obtain rfl := Option.some.inj hp
      exact hap
    · rw [if_neg hap] at hpi
      exact Option.noConfusion hpi
  · rintro ⟨hlt, hall⟩
    refine ⟨(i, ds[i]), ?_, ?_⟩
    · rw [List.mem_enum_iff_getElem?]
      exact List.getElem?_eq_getElem hlt
    · have hai : a ∈ ds[i] := by
        have := hall a rfl
        rwa [List.getD_eq_getElem _ _ hlt] at this
      rw [if_pos hai]

theorem tid_dict_keys_mem (ds : List (List α)) (a : α) :
    a ∈ (tid_dict ds).map Prod.fst ↔ a ∈ allItems ds := by
  unfold tid_dict
  rw [keys_scan_mem, mem_allItems]
  simp only [List.map_nil, List.not_mem_nil, false_or]
  constructor
  · rintro ⟨⟨j, t⟩, hp, hA⟩
    rw [List.mem_enum_iff_getElem?] at hp
    have hlt : j < ds.length := by
      by_contra hge
      rw [List.getElem?_eq_none (by omega)] at hp
      exact Option.noConfusion hp
    rw [List.getElem?_eq_getElem hlt] at hp
    obtain rfl := Option.some.inj hp
    exact ⟨ds[j], List.getElem_mem hlt, hA⟩
  · rintro ⟨t, ht, hA⟩
    obtain ⟨i, hi, rfl⟩ := List.mem_iff_getElem.mp ht
    exact ⟨(i, ds[i]), List.mem_enum_iff_getElem?.mpr (List.getElem?_eq_getElem hi), hA⟩

theorem tid_dict_keys_nodup (ds : List (List α)) :
    ((tid_dict ds).map Prod.fst).Nodup :=
  keys_scan_nodup _ List.nodup_nil

theorem mem_of_keysNodup {m : List (α × Finset ℕ)}
    (hm : (m.map Prod.fst).Nodup) (q : α × Finset ℕ) :
    q ∈ m ↔ q.1 ∈ m.map Prod.fst ∧ dval m q.1 = q.2 := by
  induction m with
  | nil => simp
  | cons p m ih =>
    simp only [List.map_cons, List.nodup_cons] at hm
    have hdval : ∀ b, dval (p :: m) b = if b = p.1 then p.2 else dval m b := by
      intro b
      by_cases hb : b = p.1
      · subst hb
        simp [dval, List.find?_cons]
      · rw [if_neg hb]
        have hdec : (decide (p.1 = b)) = false := decide_eq_false (fun h => hb h.symm)
        simp [dval, List.find?_cons, hdec]
    constructor
    · intro hq
      rcases List.mem_cons.mp hq with rfl | hq
      · exact ⟨List.mem_cons.mpr (Or.inl rfl), by rw [hdval, if_pos rfl]⟩
      · have h1 : q.1 ∈ m.map Prod.fst := List.mem_map.mpr ⟨q, hq, rfl⟩
        have hne : q.1 ≠ p.1 := fun h => hm.1 (h ▸ h1)
        refine ⟨List.mem_cons.mpr (Or.inr h1), ?_⟩
        rw [hdval, if_neg hne]
        exact ((ih hm.2).mp hq).2
    · rintro ⟨hmem, hdq⟩
      rw [hdval] at hdq
      by_cases hne : q.1 = p.1
      · rw [if_pos hne] at hdq
        have hqp : q = p := Prod.ext hne hdq.symm
        rw [hqp]
        exact List.mem_cons_self p m
      · rw [if_neg hne] at hdq
        rcases List.mem_cons.mp hmem with h | h
        · exact absurd h hne
        · exact List.mem_cons.mpr (Or.inr ((ih hm.2).mpr ⟨h, hdq⟩))

theorem tid_dict_entry {ds : List (List α)} {q : α × Finset ℕ}
    (hq : q ∈ tid_dict ds) : q.2 = coverF ds {q.1} := by
  have := (mem_of_keysNodup (tid_dict_keys_nodup ds) q).mp hq
  rw [← this.2, dval_tid_dict]

/-! ## The Eclat recursion -/

/-- The invariant of the Eclat recursion: every candidate pair of the current
list holds the exact TID-set of `prefix + [item]`. -/
def Inv (ds : List (List α)) (pre : List α) (items : List (α × Finset ℕ)) : Prop :=
  ∀ p ∈ items, p.2 = coverL ds (pre ++ [p.1])

theorem coverL_snoc (ds : List (List α)) (l : List α) (a : α) :
    coverL ds (l ++ [a]) = coverL ds l ∩ coverF ds {a} := by
  rw [coverL_append]
  congr 1

theorem mem_nextItems {ms : ℚ} {tids : Finset ℕ} {items : List (α × Finset ℕ)}
    {q : α × Finset ℕ} :
    q ∈ nextItems ms tids items ↔
      ∃ p ∈ items, q = (p.1, tids ∩ p.2) ∧ ms ≤ ((tids ∩ p.2).card : ℚ) := by
  unfold nextItems
  simp only [List.mem_filterMap]
  constructor
  · rintro ⟨p, hp, hsome⟩
    by_cases hc : ms ≤ (((tids ∩ p.2).card : ℕ) : ℚ)
    · rw [if_pos hc] at hsome
      exact ⟨p, hp, (Option.some.inj hsome).symm, hc⟩
    · rw [if_neg hc] at hsome
      exact Option.noConfusion hsome
  · rintro ⟨p, hp, rfl, hc⟩
    exact ⟨p, hp, by rw [if_pos hc]⟩

theorem nextItems_fst_sublist (ms : ℚ) (tids : Finset ℕ)
    (items : List (α × Finset ℕ)) :
    ((nextItems ms tids items).map Prod.fst).Sublist (items.map Prod.fst) := by
  induction items with
  | nil => simp [nextItems]
  | cons p rest ih =>
    unfold nextItems at ih ⊢
    rw [List.filterMap_cons]
    by_cases hc : ms ≤ (((tids ∩ p.2).card : ℕ) : ℚ)
    · rw [if_pos hc]
      simpa using List.Sublist.cons₂ p.1 ih
    · rw [if_neg hc]
      simpa using List.Sublist.cons p.1 ih

theorem nextItems_length_le (ms : ℚ) (tids : Finset ℕ)
    (items : List (α × Finset ℕ)) :
    (nextItems ms tids items).length ≤ items.length :=
  List.length_filterMap_le _ _

theorem inv_tail {ds : List (List α)} {pre : List α} {p : α × Finset ℕ}
    {items : List (α × Finset ℕ)} (h : Inv ds pre (p :: items)) :
    Inv ds pre items :=
  fun q hq => h q (List.mem_cons.mpr (Or.inr hq))

theorem inv_head {ds : List (List α)} {pre : List α} {it : α} {tids : Finset ℕ}
    {items : List (α × Finset ℕ)} (h : Inv ds pre ((it, tids) :: items)) :
    tids = coverL ds (pre ++ [it]) :=
  h (it, tids) (List.mem_cons.mpr (Or.inl rfl))

theorem inv_nextItems {ds : List (List α)} {pre : List α} {it : α}
    {tids : Finset ℕ} {rest : List (α × Finset ℕ)} (ms : ℚ)
    (hinv : Inv ds pre ((it, tids) :: rest)) :
    Inv ds (pre ++ [it]) (nextItems ms tids rest) := by
  intro q hq
  obtain ⟨p, hp, rfl, _⟩ := mem_nextItems.mp hq
  have htids := inv_head hinv
  have hp2 := hinv p (List.mem_cons.mpr (Or.inr hp))
  have key : ∀ A B C : Finset ℕ, (A ∩ B) ∩ (A ∩ C) = (A ∩ B) ∩ C := by
    intro A B C
    ext x
    simp only [Finset.mem_inter]
    tauto
  show tids ∩ p.2 = coverL ds ((pre ++ [it]) ++ [p.1])
  rw [htids, hp2]
  simp only [coverL_snoc]
  exact key _ _ _

theorem eclatRecursive_exact {ds : List (List α)} (mi : ℕ) (ms : ℚ) :
    ∀ (fuel : ℕ) (pre : List α) (items : List (α × Finset ℕ)),
      Inv ds pre items →
      ∀ S c, (S, c) ∈ eclatRecursive mi ms fuel pre items →
        c = (coverL ds S).card := by
  intro fuel
  induction fuel with
  | zero => intro pre items _ S c h; simp [eclatRecursive] at h
  | succ fuel ih =>
    rintro pre (_ | ⟨⟨it, tids⟩, rest⟩) hinv S c hmem
    · simp [eclatRecursive] at hmem
    · simp only [eclatRecursive, List.mem_append] at hmem
      rcases hmem with (hrec | h1) | h2
      · rcases le_or_lt mi (pre ++ [it]).length with hle | hlt
        · rw [if_pos hle] at hrec
          simp only [List.mem_singleton, Prod.mk.injEq] at hrec
          obtain ⟨rfl, rfl⟩ := hrec
          rw [inv_head hinv]
        · rw [if_neg (by omega)] at hrec
          simp at hrec
      · exact ih _ _ (inv_nextItems ms hinv) S c h1
      · exact ih _ _ (inv_tail hinv) S c h2

theorem nextItems_thr {ms : ℚ} {tids : Finset ℕ} {items : List (α × Finset ℕ)} :
    ∀ p ∈ nextItems ms tids items, ms ≤ ((p.2.card : ℕ) : ℚ) := by
  intro p hp
  obtain ⟨q, _, rfl, hc⟩ := mem_nextItems.mp hp
  exact hc

theorem eclatRecursive_shape {mi : ℕ} {ms : ℚ} :
    ∀ (fuel : ℕ) (pre : List α) (items : List (α × Finset ℕ)) (S : List α) (c : ℕ),
      (S, c) ∈ eclatRecursive mi ms fuel pre items →
      ∃ E : List α, E ≠ [] ∧ (∀ a ∈ E, a ∈ items.map Prod.fst) ∧ S = pre ++ E := by
  intro fuel
  induction fuel with
  | zero => intro pre items S c h; simp [eclatRecursive] at h
  | succ fuel ih =>
    rintro pre (_ | ⟨⟨it, tids⟩, rest⟩) S c hmem
    · simp [eclatRecursive] at hmem
    · simp only [eclatRecursive, List.mem_append] at hmem
      rcases hmem with (hrec | h1) | h2
      · rcases le_or_lt mi (pre ++ [it]).length with hle | hlt
        · rw [if_pos hle] at hrec
          simp only [List.mem_singleton, Prod.mk.injEq] at hrec
          obtain ⟨rfl, rfl⟩ := hrec
          exact ⟨[it], by simp, by simp, rfl⟩
        · rw [if_neg (by omega)] at hrec
          simp at hrec
      · obtain ⟨E, hE, hEsub, rfl⟩ := ih _ _ _ _ h1
        refine ⟨it :: E, by simp, ?_, by simp⟩
        intro a ha
        rcases List.mem_cons.mp ha with rfl | ha
        · simp
        · have := (nextItems_fst_sublist ms tids rest).subset (hEsub a ha)
          simp [this]
      · obtain ⟨E, hE, hEsub, rfl⟩ := ih _ _ _ _ h2
        refine ⟨E, hE, ?_, rfl⟩
        intro a ha
        have := hEsub a ha
        simp only [List.map_cons, List.mem_cons]
        exact Or.inr this

theorem eclatRecursive_nodup {mi : ℕ} {ms : ℚ} :
    ∀ (fuel : ℕ) (pre : List α) (items : List (α × Finset ℕ)),
      (pre ++ items.map Prod.fst).Nodup →
      ((eclatRecursive mi ms fuel pre items).map
        (fun q : List α × ℕ => q.1.toFinset)).Nodup := by
  intro fuel
  induction fuel with
  | zero => intro pre items _; simp [eclatRecursive]
  | succ fuel ih =>
    rintro pre (_ | ⟨⟨it, tids⟩, rest⟩) hnd
    · simp [eclatRecursive]
    · have hnd' := hnd
      simp only [List.map_cons, List.nodup_append, List.nodup_cons] at hnd'
      obtain ⟨hndpre, ⟨hitrest, hndrest⟩, hdisj⟩ := hnd'
      have hitpre : it ∉ pre := fun h => hdisj h (List.mem_cons.mpr (Or.inl rfl))
      have hprerest : ∀ a ∈ pre, a ∉ rest.map Prod.fst :=
        fun a ha hb => hdisj ha (List.mem_cons.mpr (Or.inr hb))
      have hnd1 : ((pre ++ [it]) ++ (nextItems ms tids rest).map Prod.fst).Nodup := by
        have hsub : ((pre ++ [it]) ++ (nextItems ms tids rest).map Prod.fst).Sublist
            ((pre ++ [it]) ++ rest.map Prod.fst) :=
          (nextItems_fst_sublist ms tids rest).append_left _
        refine hsub.nodup ?_
        have : (pre ++ [it]) ++ rest.map Prod.fst = pre ++ (it :: rest.map Prod.fst) := by
          simp
        rw [this]
        simpa using hnd
      have hnd2 : (pre ++ rest.map Prod.fst).Nodup := by
        have hsub : (pre ++ rest.map Prod.fst).Sublist
            (pre ++ (it :: rest.map Prod.fst)) :=
          (List.sublist_cons_self it _).append_left pre
        refine hsub.nodup ?_
        simpa using hnd
      -- membership facts for the three blocks
      have hin1 : ∀ T ∈ (eclatRecursive mi ms fuel (pre ++ [it])
          (nextItems ms tids rest)).map (fun q : List α × ℕ => q.1.toFinset),
          it ∈ T ∧ T ≠ (pre ++ [it]).toFinset := by
        intro T hT
        obtain ⟨⟨S, c⟩, hmem, rfl⟩ := List.mem_map.mp hT
        obtain ⟨E, hE, hEsub, rfl⟩ := eclatRecursive_shape _ _ _ _ _ hmem
        constructor
        · simp
        · obtain ⟨a, ha⟩ := List.exists_mem_of_ne_nil _ hE
          have hanext := hEsub a ha
          have harest : a ∈ rest.map Prod.fst :=
            (nextItems_fst_sublist ms tids rest).subset hanext
          have hanotpre : a ∉ pre := fun h => hprerest a h harest
          have hanotit : a ≠ it := fun h => hitrest (h ▸ harest)
          intro hEq
          have haT : a ∈ ((pre ++ [it]) ++ E).toFinset := by
            simp [ha]
          rw [hEq] at haT
          simp only [List.toFinset_append, List.toFinset_cons, List.toFinset_nil,
            Finset.mem_union, List.mem_toFinset] at haT
          rcases haT with h | h
          · rcases List.mem_toFinset.mp (by simpa using h) with h'
            exact hanotpre h'
          · simp only [Finset.mem_insert, Finset.not_mem_empty, or_false] at h
            exact hanotit h
      have hin2 : ∀ T ∈ (eclatRecursive mi ms fuel pre rest).map
          (fun q : List α × ℕ => q.1.toFinset), it ∉ T := by
        intro T hT
        obtain ⟨⟨S, c⟩, hmem, rfl⟩ := List.mem_map.mp hT
        obtain ⟨E, hE, hEsub, rfl⟩ := eclatRecursive_shape _ _ _ _ _ hmem
        intro hitT
        simp only [List.toFinset_append, Finset.mem_union, List.mem_toFinset] at hitT
        rcases hitT with h | h
        · exact hitpre h
        · exact hitrest (hEsub it h)
      rw [show eclatRecursive mi ms (fuel + 1) pre ((it, tids) :: rest) =
          (if mi ≤ (pre ++ [it]).length then [(pre ++ [it], tids.card)] else []) ++
          eclatRecursive mi ms fuel (pre ++ [it]) (nextItems ms tids rest) ++
          eclatRecursive mi ms fuel pre rest from rfl]
      rw [List.map_append, List.map_append]
      refine List.Nodup.append (List.Nodup.append ?_ (ih _ _ hnd1) ?_) (ih _ _ hnd2) ?_
      · rcases le_or_lt mi (pre ++ [it]).length with hle | hlt
        · rw [if_pos hle]
          simp
        · rw [if_neg (by omega)]
          simp
      · -- the record block is disjoint from the first recursive block
        intro T hTrec hT1
        rcases le_or_lt mi (pre ++ [it]).length with hle | hlt
        · rw [if_pos hle] at hTrec
          simp only [List.map_cons, List.map_nil, List.mem_singleton] at hTrec
          exact (hin1 T hT1).2 hTrec
        · rw [if_neg (by omega)] at hTrec
          simp at hTrec
      · -- blocks containing `it` are disjoint from the last recursive block
        intro T hT12 hT2
        have hitT : it ∈ T := by
          rcases List.mem_append.mp hT12 with h1 | h1
          · rcases le_or_lt mi (pre ++ [it]).length with hle | hlt
            · rw [if_pos hle] at h1
              simp only [List.map_cons, List.map_nil, List.mem_singleton] at h1
              rw [h1]
              simp
            · rw [if_neg (by omega)] at h1
              simp at h1
          · exact (hin1 T h1).1
        exact hin2 T hT2 hitT



theorem eclatRecursive_sound {ds : List (List α)} {mi : ℕ} {ms : ℚ} :
    ∀ (fuel : ℕ) (pre : List α) (items : List (α × Finset ℕ)),
      Inv ds pre items →
      (∀ p ∈ items, ms ≤ ((p.2.card : ℕ) : ℚ)) →
      (pre ++ items.map Prod.fst).Nodup →
      ∀ S c, (S, c) ∈ eclatRecursive mi ms fuel pre items →
        ∃ E : List α, E ≠ [] ∧ (∀ a ∈ E, a ∈ items.map Prod.fst) ∧ S = pre ++ E ∧
          S.Nodup ∧ ms ≤ (((coverL ds S).card : ℕ) : ℚ) ∧ mi ≤ S.length ∧
          c = (coverL ds S).card := by
  intro fuel
  induction fuel with
  | zero => intro pre items _ _ _ S c h; simp [eclatRecursive] at h
  | succ fuel ih =>
    rintro pre (_ | ⟨⟨it, tids⟩, rest⟩) hinv hthr hnd S c hmem
    · simp [eclatRecursive] at hmem
    · have hnd' := hnd
      simp only [List.map_cons, List.nodup_append, List.nodup_cons] at hnd'
      obtain ⟨hndpre, ⟨hitrest, hndrest⟩, hdisj⟩ := hnd'
      have hitpre : it ∉ pre := fun h => hdisj h (List.mem_cons.mpr (Or.inl rfl))
      have hnd1 : ((pre ++ [it]) ++ (nextItems ms tids rest).map Prod.fst).Nodup := by
        have hsub : ((pre ++ [it]) ++ (nextItems ms tids rest).map Prod.fst).Sublist
            ((pre ++ [it]) ++ rest.map Prod.fst) :=
          (nextItems_fst_sublist ms tids rest).append_left _
        refine hsub.nodup ?_
        have heq : (pre ++ [it]) ++ rest.map Prod.fst = pre ++ (it :: rest.map Prod.fst) := by
          simp
        rw [heq]
        simpa using hnd
      have hnd2 : (pre ++ rest.map Prod.fst).Nodup := by
        have hsub : (pre ++ rest.map Prod.fst).Sublist
            (pre ++ (it :: rest.map Prod.fst)) :=
          (List.sublist_cons_self it _).append_left pre
        refine hsub.nodup ?_
        simpa using hnd
      simp only [eclatRecursive, List.mem_append] at hmem
      rcases hmem with (hrec | h1) | h2
      · rcases le_or_lt mi (pre ++ [it]).length with hle | hlt
        · rw [if_pos hle] at hrec
          simp only [List.mem_singleton, Prod.mk.injEq] at hrec
          obtain ⟨rfl, rfl⟩ := hrec
          refine ⟨[it], by simp, by simp, rfl, ?_, ?_, hle, by rw [inv_head hinv]⟩
          · have hsub : (pre ++ [it]).Sublist (pre ++ (it :: rest.map Prod.fst)) := by
              refine List.Sublist.append_left ?_ pre
              exact (List.nil_sublist _).cons₂ it
            refine hsub.nodup ?_
            simpa using hnd
          · rw [← inv_head hinv]
            exact hthr (it, tids) (List.mem_cons.mpr (Or.inl rfl))
        · rw [if_neg (by omega)] at hrec
          simp at hrec
      · obtain ⟨E, hE, hEsub, rfl, hSnd, hms, hmi, rfl⟩ :=
          ih _ _ (inv_nextItems ms hinv) nextItems_thr hnd1 S c h1
        refine ⟨it :: E, by simp, ?_, by simp, hSnd, hms, hmi, rfl⟩
        intro a ha
        rcases List.mem_cons.mp ha with rfl | ha
        · simp
        · have := (nextItems_fst_sublist ms tids rest).subset (hEsub a ha)
          simp only [List.map_cons, List.mem_cons]
          exact Or.inr this
      · obtain ⟨E, hE, hEsub, rfl, hSnd, hms, hmi, rfl⟩ :=
          ih _ _ (inv_tail hinv)
            (fun p hp => hthr p (List.mem_cons.mpr (Or.inr hp))) hnd2 S c h2
        refine ⟨E, hE, ?_, rfl, hSnd, hms, hmi, rfl⟩
        intro a ha
        simp only [List.map_cons, List.mem_cons]
        exact Or.inr (hEsub a ha)

theorem eclatRecursive_complete {ds : List (List α)} {mi : ℕ} {ms : ℚ} :
    ∀ (fuel : ℕ) (pre : List α) (items : List (α × Finset ℕ)),
      items.length ≤ fuel →
      Inv ds pre items →
      (pre ++ items.map Prod.fst).Nodup →
      ∀ T : Finset α, (∀ a ∈ T, a ∈ items.map Prod.fst) → T.Nonempty →
        ms ≤ (((coverF ds (pre.toFinset ∪ T)).card : ℕ) : ℚ) →
        mi ≤ pre.length + T.card →
        ∃ S c, (S, c) ∈ eclatRecursive mi ms fuel pre items ∧
          S.toFinset = pre.toFinset ∪ T ∧
          c = (coverF ds (pre.toFinset ∪ T)).card := by
  intro fuel
  induction fuel with
  | zero =>
    intro pre items hfuel _ _ T hTsub hTne _ _
    obtain ⟨a, ha⟩ := hTne
    rw [Nat.le_zero, List.length_eq_zero] at hfuel
    subst hfuel
    simp at hTsub
    exact absurd (hTsub a ha) (by simp)
  | succ fuel ih =>
    rintro pre (_ | ⟨⟨it, tids⟩, rest⟩) hfuel hinv hnd T hTsub hTne hms hmi
    · obtain ⟨a, ha⟩ := hTne
      exact absurd (hTsub a ha) (by simp)
    · have hnd' := hnd
      simp only [List.map_cons, List.nodup_append, List.nodup_cons] at hnd'
      obtain ⟨hndpre, ⟨hitrest, hndrest⟩, hdisj⟩ := hnd'
      have hitpre : it ∉ pre := fun h => hdisj h (List.mem_cons.mpr (Or.inl rfl))
      have hnd1 : ((pre ++ [it]) ++ (nextItems ms tids rest).map Prod.fst).Nodup := by
        have hsub : ((pre ++ [it]) ++ (nextItems ms tids rest).map Prod.fst).Sublist
            ((pre ++ [it]) ++ rest.map Prod.fst) :=
          (nextItems_fst_sublist ms tids rest).append_left _
        refine hsub.nodup ?_
        have heq : (pre ++ [it]) ++ rest.map Prod.fst = pre ++ (it :: rest.map Prod.fst) := by
          simp
        rw [heq]
        simpa using hnd
      have hnd2 : (pre ++ rest.map Prod.fst).Nodup := by
        have hsub : (pre ++ rest.map Prod.fst).Sublist
            (pre ++ (it :: rest.map Prod.fst)) :=
          (List.sublist_cons_self it _).append_left pre
        refine hsub.nodup ?_
        simpa using hnd
      have hunfold : eclatRecursive mi ms (fuel + 1) pre ((it, tids) :: rest) =
          (if mi ≤ (pre ++ [it]).length then [(pre ++ [it], tids.card)] else []) ++
          eclatRecursive mi ms fuel (pre ++ [it]) (nextItems ms tids rest) ++
          eclatRecursive mi ms fuel pre rest := rfl
      by_cases hitT : it ∈ T
      · by_cases hTsing : T = {it}
        · subst hTsing
          have hle : mi ≤ (pre ++ [it]).length := by
            simp only [List.length_append, List.length_singleton]
            simpa using hmi
          refine ⟨pre ++ [it], tids.card, ?_, ?_, ?_⟩
          · rw [hunfold]
            refine List.mem_append.mpr (Or.inl (List.mem_append.mpr (Or.inl ?_)))
            rw [if_pos hle]
            simp
          · simp
          · have htids := inv_head hinv
            have hset : (pre ++ [it]).toFinset = pre.toFinset ∪ {it} := by simp
            rw [htids, coverL, hset]
        · -- T has a second element besides it
          have hE'ne : (T.erase it).Nonempty := by
            rcases Finset.eq_empty_or_nonempty (T.erase it) with hemp | hne
            · exfalso
              apply hTsing
              ext a
              constructor
              · intro ha
                by_cases hai : a = it
                · simp [hai]
                · exfalso
                  have : a ∈ T.erase it := Finset.mem_erase.mpr ⟨hai, ha⟩
                  rw [hemp] at this
                  simp at this
              · intro ha
                simp only [Finset.mem_singleton] at ha
                rw [ha]
                exact hitT
            · exact hne
          have hsetT : (pre ++ [it]).toFinset ∪ T.erase it = pre.toFinset ∪ T := by
            ext a
            simp only [List.toFinset_append, List.toFinset_cons, List.toFinset_nil,
              insert_emptyc_eq, Finset.mem_union, Finset.mem_insert, List.mem_toFinset,
              Finset.mem_erase, Finset.mem_singleton]
            constructor
            · rintro ((h | h) | h)
              · exact Or.inl h
              · exact Or.inr (h ▸ hitT)
              · exact Or.inr h.2
            · rintro (h | h)
              · exact Or.inl (Or.inl h)
              · by_cases hai : a = it
                · exact Or.inl (Or.inr hai)
                · exact Or.inr ⟨hai, h⟩
          have hsubE' : ∀ a ∈ T.erase it, a ∈ (nextItems ms tids rest).map Prod.fst := by
            intro a ha
            obtain ⟨hane, haT⟩ := Finset.mem_erase.mp ha
            have harest : a ∈ rest.map Prod.fst := by
              have := hTsub a haT
              simp only [List.map_cons, List.mem_cons] at this
              rcases this with h | h
              · exact absurd h hane
              · exact h
            obtain ⟨q, hq, hq1⟩ := List.mem_map.mp harest
            have hq2 := hinv q (List.mem_cons.mpr (Or.inr hq))
            have htids := inv_head hinv
            have hinter : tids ∩ q.2 =
                coverF ds ((pre ++ [it]).toFinset ∪ (pre ++ [q.1]).toFinset) := by
              rw [htids, hq2, coverL, coverL, coverF_union]
            have hWsub : (pre ++ [it]).toFinset ∪ (pre ++ [q.1]).toFinset ⊆
                pre.toFinset ∪ T := by
              intro b hb
              simp only [List.toFinset_append, List.toFinset_cons, List.toFinset_nil,
                insert_emptyc_eq, Finset.mem_union, Finset.mem_insert,
                List.mem_toFinset, Finset.mem_singleton] at hb ⊢
              rcases hb with (h | h) | (h | h)
              · exact Or.inl h
              · exact Or.inr (h ▸ hitT)
              · exact Or.inl h
              · exact Or.inr (h ▸ hq1 ▸ haT)
            have hcard : ((coverF ds (pre.toFinset ∪ T)).card : ℚ) ≤
                (((tids ∩ q.2).card : ℕ) : ℚ) := by
              rw [hinter]
              exact_mod_cast Finset.card_le_card (coverF_anti hWsub)
            refine List.mem_map.mpr ⟨(q.1, tids ∩ q.2), ?_, hq1⟩
            exact mem_nextItems.mpr ⟨q, hq, rfl, le_trans hms hcard⟩
          have hfuel1 : (nextItems ms tids rest).length ≤ fuel := by
            have h1 := nextItems_length_le ms tids rest
            simp only [List.length_cons] at hfuel
            omega
          have hms1 : ms ≤
              (((coverF ds ((pre ++ [it]).toFinset ∪ T.erase it)).card : ℕ) : ℚ) := by
            rw [hsetT]
            exact hms
          have hmi1 : mi ≤ (pre ++ [it]).length + (T.erase it).card := by
            have hc := Finset.card_erase_of_mem hitT
            have hTpos : 1 ≤ T.card := Finset.card_pos.mpr hTne
            simp only [List.length_append, List.length_singleton]
            omega
          obtain ⟨S, c, hmemS, hSet, hc⟩ :=
            ih (pre ++ [it]) (nextItems ms tids rest) hfuel1
              (inv_nextItems ms hinv) hnd1 (T.erase it) hsubE' hE'ne hms1 hmi1
          refine ⟨S, c, ?_, ?_, ?_⟩
          · rw [hunfold]
            exact List.mem_append.mpr (Or.inl (List.mem_append.mpr (Or.inr hmemS)))
          · rw [hSet, hsetT]
          · rw [hc, hsetT]
      · -- it ∉ T : recurse into the tail
        have hsub2 : ∀ a ∈ T, a ∈ rest.map Prod.fst := by
          intro a ha
          have := hTsub a ha
          simp only [List.map_cons, List.mem_cons] at this
          rcases this with h | h
          · exact absurd (h ▸ ha) hitT
          · exact h
        have hfuel2 : rest.length ≤ fuel := by
          simp only [List.length_cons] at hfuel
          omega
        obtain ⟨S, c, hmemS, hSet, hc⟩ :=
          ih pre rest hfuel2 (inv_tail hinv) hnd2 T hsub2 hTne hms hmi
        refine ⟨S, c, ?_, hSet, hc⟩
        rw [hunfold]
        exact List.mem_append.mpr (Or.inr hmemS)

/-- The root candidate list of `fitAux` (frequent single items, sorted by
descending TID-set size). -/
def sortedItems (min_sup : ℚ) (ds : List (List α)) : List (α × Finset ℕ) :=
  List.insertionSort (fun p q : α × Finset ℕ => q.2.card ≤ p.2.card)
    ((tid_dict ds).filter (fun p => min_sup ≤ (p.2.card : ℚ)))

theorem fitAux_eq (min_sup : ℚ) (mi : ℕ) (ds : List (List α)) :
    fitAux min_sup mi ds =
      eclatRecursive mi min_sup (sortedItems min_sup ds).length []
        (sortedItems min_sup ds) := rfl

theorem mem_sortedItems {ms : ℚ} {ds : List (List α)} {p : α × Finset ℕ} :
    p ∈ sortedItems ms ds ↔ p ∈ tid_dict ds ∧ ms ≤ ((p.2.card : ℕ) : ℚ) := by
  unfold sortedItems
  rw [(List.perm_insertionSort _ _).mem_iff, List.mem_filter]
  simp only [decide_eq_true_eq]

theorem sortedItems_inv (ms : ℚ) (ds : List (List α)) :
    Inv ds [] (sortedItems ms ds) := by
  intro p hp
  have h := tid_dict_entry (mem_sortedItems.mp hp).1
  rw [h]
  simp [coverL]

theorem sortedItems_thr (ms : ℚ) (ds : List (List α)) :
    ∀ p ∈ sortedItems ms ds, ms ≤ ((p.2.card : ℕ) : ℚ) :=
  fun p hp => (mem_sortedItems.mp hp).2

theorem sortedItems_fst_nodup (ms : ℚ) (ds : List (List α)) :
    (([] : List α) ++ (sortedItems ms ds).map Prod.fst).Nodup := by
  simp only [List.nil_append]
  have hperm : ((sortedItems ms ds).map Prod.fst).Perm
      (((tid_dict ds).filter (fun p => decide (ms ≤ ((p.2.card : ℕ) : ℚ)))).map
        Prod.fst) :=
    (List.perm_insertionSort _ _).map _
  rw [hperm.nodup_iff]
  exact ((List.filter_sublist (tid_dict ds)).map Prod.fst).nodup (tid_dict_keys_nodup ds)

theorem mem_sortedItems_fst {ms : ℚ} {ds : List (List α)} {a : α} :
    a ∈ (sortedItems ms ds).map Prod.fst ↔
      a ∈ allItems ds ∧ ms ≤ (((coverF ds {a}).card : ℕ) : ℚ) := by
  constructor
  · intro h
    obtain ⟨p, hp, rfl⟩ := List.mem_map.mp h
    have h1 := mem_sortedItems.mp hp
    have h2 := tid_dict_entry h1.1
    refine ⟨?_, ?_⟩
    · exact (tid_dict_keys_mem ds p.1).mp (List.mem_map.mpr ⟨p, h1.1, rfl⟩)
    · rw [← h2]
      exact h1.2
  · rintro ⟨hall, hthr⟩
    have hkey : a ∈ (tid_dict ds).map Prod.fst := (tid_dict_keys_mem ds a).mpr hall
    have hentry : (a, dval (tid_dict ds) a) ∈ tid_dict ds :=
      (mem_of_keysNodup (tid_dict_keys_nodup ds) _).mpr ⟨hkey, rfl⟩
    refine List.mem_map.mpr ⟨(a, dval (tid_dict ds) a),
      mem_sortedItems.mpr ⟨hentry, ?_⟩, rfl⟩
    rw [dval_tid_dict ds a]
    exact hthr

theorem fitAux_mem {ds : List (List α)} {ms : ℚ} {mi : ℕ} {T : Finset α} {c : ℕ} :
    (T, c) ∈ (fitAux ms mi ds).map (fun q : List α × ℕ => (q.1.toFinset, q.2)) ↔
      T.Nonempty ∧
      (∀ a ∈ T, a ∈ allItems ds ∧ ms ≤ (((coverF ds {a}).card : ℕ) : ℚ)) ∧
      ms ≤ (((coverF ds T).card : ℕ) : ℚ) ∧ mi ≤ T.card ∧
      c = (coverF ds T).card := by
  constructor
  · intro h
    obtain ⟨⟨S, c'⟩, hmem, hpair⟩ := List.mem_map.mp h
    obtain ⟨hT, hc⟩ : S.toFinset = T ∧ c' = c := by
      constructor
      · exact congrArg Prod.fst hpair
      · exact congrArg Prod.snd hpair
    rw [fitAux_eq] at hmem
    obtain ⟨E, hE, hEsub, hSE, hSnd, hms, hmi, hcval⟩ :=
      eclatRecursive_sound _ [] _ (sortedItems_inv ms ds) (sortedItems_thr ms ds)
        (sortedItems_fst_nodup ms ds) S c' hmem
    simp only [List.nil_append] at hSE
    subst hSE
    refine ⟨?_, ?_, ?_, ?_, ?_⟩
    · obtain ⟨a, ha⟩ := List.exists_mem_of_ne_nil _ hE
      exact ⟨a, hT ▸ List.mem_toFinset.mpr ha⟩
    · intro a ha
      rw [← hT] at ha
      exact mem_sortedItems_fst.mp (hEsub a (List.mem_toFinset.mp ha))
    · rw [← hT]
      exact hms
    · rw [← hT, List.toFinset_card_of_nodup hSnd]
      exact hmi
    · rw [← hc, ← hT]
      exact hcval
  · rintro ⟨hTne, hTchar, hms, hmi, hc⟩
    have hsub : ∀ a ∈ T, a ∈ (sortedItems ms ds).map Prod.fst :=
      fun a ha => mem_sortedItems_fst.mpr (hTchar a ha)
    have hms' : ms ≤
        (((coverF ds (([] : List α).toFinset ∪ T)).card : ℕ) : ℚ) := by
      simpa using hms
    have hmi' : mi ≤ ([] : List α).length + T.card := by simpa using hmi
    obtain ⟨S, c', hmemS, hSet, hcval⟩ :=
      eclatRecursive_complete (sortedItems ms ds).length [] (sortedItems ms ds)
        le_rfl (sortedItems_inv ms ds) (sortedItems_fst_nodup ms ds)
        T hsub hTne hms' hmi'
    have hSetT : S.toFinset = T := by simpa using hSet
    have hc' : c' = c := by
      rw [hcval, hc]
      congr 1
      simp
    refine List.mem_map.mpr ⟨(S, c'), ?_, ?_⟩
    · rw [fitAux_eq]
      exact hmemS
    · rw [hSetT, hc']

theorem fitAux_nodup (ms : ℚ) (mi : ℕ) (ds : List (List α)) :
    ((fitAux ms mi ds).map (fun q : List α × ℕ => q.1.toFinset)).Nodup := by
  rw [fitAux_eq]
  exact eclatRecursive_nodup _ _ _ (sortedItems_fst_nodup ms ds)

theorem fitAux_exact {ms : ℚ} {mi : ℕ} {ds : List (List α)} :
    ∀ S c, (S, c) ∈ fitAux ms mi ds → c = (coverL ds S).card := by
  rw [fitAux_eq]
  exact eclatRecursive_exact mi ms _ [] _ (sortedItems_inv ms ds)

end Eclat


/-! ## Lemmas for the level-wise engine -/

namespace Apriori

variable {α : Type} [LinearOrder α]

/-- A list with strictly increasing elements whose elements all occur in
another strictly increasing list is a sublist of it. -/
theorem sorted_lt_sublist :
    ∀ {u v : List α}, u.Sorted (· < ·) → v.Sorted (· < ·) →
      (∀ a ∈ u, a ∈ v) → u.Sublist v := by
  intro u v hu hv hsub
  induction v generalizing u with
  | nil =>
    cases u with
    | nil => exact List.Sublist.refl []
    | cons a u => exact absurd (hsub a (List.mem_cons.mpr (Or.inl rfl))) (by simp)
  | cons b v ih =>
    cases u with
    | nil => exact List.nil_sublist _
    | cons a u =>
      rcases List.sorted_cons.mp hu with ⟨ha, hu'⟩
      rcases List.sorted_cons.mp hv with ⟨hb, hv'⟩
      by_cases hab : a = b
      · subst hab
        refine (ih hu' hv' ?_).cons₂ a
        intro x hx
        have hxv : x ∈ a :: v := hsub x (List.mem_cons.mpr (Or.inr hx))
        rcases List.mem_cons.mp hxv with rfl | hxv
        · exact absurd (ha x hx) (lt_irrefl x)
        · exact hxv
      · have hav : a ∈ v := by
          rcases List.mem_cons.mp (hsub a (List.mem_cons.mpr (Or.inl rfl))) with h | h
          · exact absurd h hab
          · exact h
        refine (ih hu ?_ ?_).cons b
        · exact hv'
        · intro x hx
          rcases List.mem_cons.mp hx with rfl | hx
          · exact hav
          · have hxv : x ∈ b :: v := hsub x (List.mem_cons.mpr (Or.inr hx))
            rcases List.mem_cons.mp hxv with rfl | hxv
            · exact absurd (hb a hav) (not_lt_of_gt (ha x hx))
            · exact hxv

theorem count_flatMap_id (ds : List (List α)) (a : α) :
    (ds.flatMap id).count a = (ds.map (fun t => t.count a)).sum := by
  induction ds with
  | nil => simp
  | cons t ds ih =>
    rw [List.flatMap_cons, List.count_append, ih, List.map_cons, List.sum_cons]
    rfl

theorem count_itemOccs (ds : List (List α)) (htrans : ∀ t ∈ ds, t.Nodup) (a : α) :
    (itemOccs ds).count a = (coverF ds {a}).card := by
  rw [itemOccs, count_flatMap_id, card_coverF]
  induction ds with
  | nil => simp [nContaining]
  | cons t ds ih =>
    have ht := htrans t (List.mem_cons.mpr (Or.inl rfl))
    have hds := fun u hu => htrans u (List.mem_cons.mpr (Or.inr hu))
    simp only [List.map_cons, List.sum_cons, nContaining, List.filter_cons]
    rw [ih hds]
    by_cases hat : a ∈ t
    · have hp : (decide (∀ b ∈ ({a} : Finset α), b ∈ t)) = true := by
        simp [hat]
      rw [List.count_eq_one_of_mem ht hat, hp]
      simp [nContaining]
      omega
    · have hp : (decide (∀ b ∈ ({a} : Finset α), b ∈ t)) = false := by
        simp [hat]
      rw [List.count_eq_zero_of_not_mem hat, hp]
      simp [nContaining]

theorem item_counts_keys (ds : List (List α)) :
    (item_counts ds).map Prod.fst = firstDedup (itemOccs ds) := by
  simp [item_counts, Function.comp_def]

theorem mem_item_counts {ds : List (List α)} {p : α × ℕ} :
    p ∈ item_counts ds ↔ p.1 ∈ allItems ds ∧ p.2 = (itemOccs ds).count p.1 := by
  unfold item_counts
  rw [List.mem_map]
  constructor
  · rintro ⟨a, ha, rfl⟩
    rw [mem_firstDedup] at ha
    refine ⟨?_, rfl⟩
    simp only [allItems, List.mem_toFinset]
    exact ha
  · rintro ⟨hall, hp2⟩
    refine ⟨p.1, ?_, ?_⟩
    · rw [mem_firstDedup]
      rw [mem_allItems] at hall
      obtain ⟨t, ht, hat⟩ := hall
      exact List.mem_flatMap.mpr ⟨t, ht, hat⟩
    · exact Prod.ext rfl hp2.symm

theorem item_counts_keys_nodup (ds : List (List α)) :
    ((item_counts ds).map Prod.fst).Nodup := by
  rw [item_counts_keys]
  exact nodup_firstDedup _


/-! ### Candidate generation: join with early break, and prune -/

theorem lex_take_mono {l1 l2 : List α} (h : List.Lex (· < ·) l1 l2) :
    ∀ n : ℕ, l1.take n = l2.take n ∨ List.Lex (· < ·) (l1.take n) (l2.take n) := by
  induction h with
  | @nil a l =>
    intro n
    cases n with
    | zero => exact Or.inl rfl
    | succ n => exact Or.inr List.Lex.nil
  | @cons a t1 t2 h ih =>
    intro n
    cases n with
    | zero => exact Or.inl rfl
    | succ n =>
      simp only [List.take_succ_cons]
      rcases ih n with heq | hlex
      · exact Or.inl (by rw [heq])
      · exact Or.inr (List.Lex.cons hlex)
  | @rel a1 t1 a2 t2 h =>
    intro n
    cases n with
    | zero => exact Or.inl rfl
    | succ n =>
      simp only [List.take_succ_cons]
      exact Or.inr (List.Lex.rel h)

theorem lex_concat_lt :
    ∀ (p : List α) {x y : α}, List.Lex (· < ·) (p ++ [x]) (p ++ [y]) → x < y := by
  intro p
  induction p with
  | nil =>
    intro x y h
    simpa using h
  | cons a p ih =>
    intro x y h
    rw [List.cons_append, List.cons_append] at h
    cases h with
    | cons h => exact ih h
    | rel h => exact absurd h (lt_irrefl a)

theorem dropAt_sublist (c : List α) (i : ℕ) : (dropAt c i).Sublist c := by
  have h1 : (c.drop i).drop 1 = c.drop (i + 1) := by
    rw [List.drop_drop, Nat.add_comm]
  have h2 : (dropAt c i).Sublist (c.take i ++ c.drop i) := by
    unfold dropAt
    rw [← h1]
    exact ((c.drop i).drop_sublist 1).append_left _
  rwa [List.take_append_drop] at h2

theorem length_dropAt {c : List α} {i : ℕ} (h : i < c.length) :
    (dropAt c i).length = c.length - 1 := by
  unfold dropAt
  rw [List.length_append, List.length_take, List.length_drop]
  omega

theorem sublist_eq_dropAt :
    ∀ {c s : List α}, s.Sublist c → s.length + 1 = c.length →
      ∃ i < c.length, s = dropAt c i := by
  intro c
  induction c with
  | nil => intro s _ hlen; simp at hlen
  | cons x c ih =>
    intro s hs hlen
    cases hs with
    | cons a hsb =>
      have heq : s = c := List.Sublist.eq_of_length hsb (by simpa using hlen)
      refine ⟨0, by simp, ?_⟩
      rw [heq]
      simp [dropAt]
    | cons₂ a hsb =>
      obtain ⟨i, hi, hs'⟩ := ih hsb (by simpa using hlen)
      refine ⟨i + 1, by simpa using hi, ?_⟩
      rw [hs']
      simp [dropAt, List.take_succ_cons, List.drop_succ_cons]

theorem not_has_infrequent_subset_iff {c : List α} {L : List (List α)} {k : ℕ}
    (hk : 1 ≤ k) (hlen : c.length = k) :
    ¬ has_infrequent_subset c L k ↔
      ∀ s : List α, s.Sublist c → s.length = k - 1 → s ∈ L := by
  unfold has_infrequent_subset
  push_neg
  constructor
  · intro h s hsub hslen
    obtain ⟨i, hi, hseq⟩ := sublist_eq_dropAt hsub (by omega)
    rw [hseq]
    exact h i (by omega)
  · intro h i hi
    exact h _ (dropAt_sublist c i) (by rw [length_dropAt (by omega)]; omega)

theorem mem_genInner {L : List (List α)} {k : ℕ} {l1 c : List α} :
    ∀ {M : List (List α)}, M.Pairwise (· < ·) → (∀ l ∈ M, l1 < l) →
      (c ∈ genInner L k l1 M ↔
        ∃ l2 ∈ M, l1.take (k - 2) = l2.take (k - 2) ∧
          c = l1 ++ (l2.drop (k - 2)).take 1 ∧ ¬ has_infrequent_subset c L k) := by
  intro M
  induction M with
  | nil => intro _ _; simp [genInner]
  | cons l2 M ih =>
    intro hM hlt
    rcases List.pairwise_cons.mp hM with ⟨hl2M, hM'⟩
    by_cases htake : l1.take (k - 2) = l2.take (k - 2)
    · rw [show genInner L k l1 (l2 :: M) =
        (if has_infrequent_subset (l1 ++ (l2.drop (k - 2)).take 1) L k then []
          else [l1 ++ (l2.drop (k - 2)).take 1]) ++ genInner L k l1 M from by
          rw [genInner, if_pos htake]]
      rw [List.mem_append,
        ih hM' (fun l hl => hlt l (List.mem_cons.mpr (Or.inr hl)))]
      constructor
      · rintro (hc | ⟨l2', hl2', htake', hceq, hni⟩)
        · by_cases hni : has_infrequent_subset (l1 ++ (l2.drop (k - 2)).take 1) L k
          · rw [if_pos hni] at hc
            simp at hc
          · rw [if_neg hni] at hc
            simp only [List.mem_singleton] at hc
            exact ⟨l2, List.mem_cons.mpr (Or.inl rfl), htake, hc, hc ▸ hni⟩
        · exact ⟨l2', List.mem_cons.mpr (Or.inr hl2'), htake', hceq, hni⟩
      · rintro ⟨l2', hl2', htake', hceq, hni⟩
        rcases List.mem_cons.mp hl2' with rfl | hl2'
        · left
          rw [hceq] at hni ⊢
          rw [if_neg hni]
          simp
        · right
          exact ⟨l2', hl2', htake', hceq, hni⟩
    · rw [show genInner L k l1 (l2 :: M) = [] from by rw [genInner, if_neg htake]]
      simp only [List.not_mem_nil, false_iff]
      rintro ⟨l2', hl2', htake', _, _⟩
      rcases List.mem_cons.mp hl2' with rfl | hl2'
      · exact htake htake'
      · -- `l2'` comes after the first prefix mismatch: sandwich the prefixes
        have h12 : List.Lex (· < ·) l1 l2 := hlt l2 (List.mem_cons.mpr (Or.inl rfl))
        have h22' : List.Lex (· < ·) l2 l2' := hl2M l2' hl2'
        rcases lex_take_mono h12 (k - 2) with heq | hlex1
        · exact htake heq
        · rcases lex_take_mono h22' (k - 2) with heq2 | hlex2
          · rw [← heq2] at htake'
            rw [htake'] at hlex1
            exact asymm hlex1 hlex1
          · rw [← htake'] at hlex2
            exact asymm hlex1 hlex2

theorem mem_genOuter {L : List (List α)} {k : ℕ} {c : List α} :
    ∀ {M : List (List α)}, M.Pairwise (· < ·) →
      (c ∈ genOuter L k M ↔
        ∃ l1 ∈ M, ∃ l2 ∈ M, List.Lex (· < ·) l1 l2 ∧
          l1.take (k - 2) = l2.take (k - 2) ∧
          c = l1 ++ (l2.drop (k - 2)).take 1 ∧ ¬ has_infrequent_subset c L k) := by
  intro M
  induction M with
  | nil => intro _; simp [genOuter]
  | cons l1 M ih =>
    intro hM
    rcases List.pairwise_cons.mp hM with ⟨hl1M, hM'⟩
    rw [show genOuter L k (l1 :: M) = genInner L k l1 M ++ genOuter L k M from rfl]
    rw [List.mem_append, mem_genInner hM' hl1M, ih hM']
    constructor
    · rintro (⟨l2, hl2, htake, hceq, hni⟩ | ⟨l1', hl1', l2', hl2', hlt', htake', hceq, hni⟩)
      · exact ⟨l1, List.mem_cons.mpr (Or.inl rfl), l2, List.mem_cons.mpr (Or.inr hl2),
          hl1M l2 hl2, htake, hceq, hni⟩
      · exact ⟨l1', List.mem_cons.mpr (Or.inr hl1'), l2', List.mem_cons.mpr (Or.inr hl2'),
          hlt', htake', hceq, hni⟩
    · rintro ⟨l1', hl1', l2', hl2', hlt', htake', hceq, hni⟩
      rcases List.mem_cons.mp hl1' with h1eq | h1mem
      · rcases List.mem_cons.mp hl2' with h2eq | h2mem
        · rw [h1eq, h2eq] at hlt'
          exact absurd hlt' (fun h => asymm h h)
        · left
          rw [h1eq] at htake' hceq
          exact ⟨l2', h2mem, htake', hceq, hni⟩
      · rcases List.mem_cons.mp hl2' with h2eq | h2mem
        · rw [h2eq] at hlt'
          exact absurd hlt' (asymm (hl1M l1' h1mem))
        · right
          exact ⟨l1', h1mem, l2', h2mem, hlt', htake', hceq, hni⟩

theorem mem_apriori_gen {L : List (List α)} {k : ℕ} {c : List α}
    (hL : L.Pairwise (· < ·)) :
    c ∈ apriori_gen L k ↔
      ∃ l1 ∈ L, ∃ l2 ∈ L, List.Lex (· < ·) l1 l2 ∧
        l1.take (k - 2) = l2.take (k - 2) ∧
        c = l1 ++ (l2.drop (k - 2)).take 1 ∧ ¬ has_infrequent_subset c L k :=
  mem_genOuter hL


theorem sorted_lt_nodup {l : List α} (h : l.Sorted (· < ·)) : l.Nodup :=
  h.imp ne_of_lt

theorem count_eq_one_of_nodup_mem {β : Type} [BEq β] [LawfulBEq β] {l : List β}
    {a : β} (hnd : l.Nodup) (ha : a ∈ l) : l.count a = 1 := by
  induction l with
  | nil => simp at ha
  | cons b l ih =>
    rcases List.nodup_cons.mp hnd with ⟨hb, hnd'⟩
    rw [List.count_cons]
    rcases List.mem_cons.mp ha with heq | hmem
    · subst heq
      rw [List.count_eq_zero.mpr hb]
      simp
    · have hne : (b == a) = false := by
        rw [beq_eq_false_iff_ne]
        rintro rfl
        exact hb hmem
      rw [ih hnd' hmem, hne]
      simp

theorem mem_apriori_gen_sets {L : List (List α)} {k : ℕ} {c : List α}
    (hk : 2 ≤ k) (hL : L.Pairwise (· < ·))
    (hlen : ∀ l ∈ L, l.length = k - 1) (helem : ∀ l ∈ L, l.Sorted (· < ·)) :
    c ∈ apriori_gen L k ↔
      c.Sorted (· < ·) ∧ c.length = k ∧
        ∀ s : List α, s.Sublist c → s.length = k - 1 → s ∈ L := by
  rw [mem_apriori_gen hL]
  constructor
  · rintro ⟨l1, hl1, l2, hl2, hlt, htake, hceq, hni⟩
    have hlen1 := hlen l1 hl1
    have hlen2 := hlen l2 hl2
    obtain ⟨a, ha⟩ : ∃ a, l1.drop (k - 2) = [a] := by
      rw [← List.length_eq_one]
      rw [List.length_drop, hlen1]
      omega
    obtain ⟨b, hb⟩ : ∃ b, l2.drop (k - 2) = [b] := by
      rw [← List.length_eq_one]
      rw [List.length_drop, hlen2]
      omega
    have hl1eq : l1 = l1.take (k - 2) ++ [a] := by
      rw [← ha, List.take_append_drop]
    have hl2eq : l2 = l1.take (k - 2) ++ [b] := by
      rw [htake, ← hb, List.take_append_drop]
    have hab : a < b := by
      refine lex_concat_lt (l1.take (k - 2)) ?_
      rw [← hl1eq, ← hl2eq]
      exact hlt
    have hceq' : c = l1 ++ [b] := by
      rw [hceq, hb]
      rfl
    have hcsorted : c.Sorted (· < ·) := by
      rw [hceq', List.Sorted, List.pairwise_append]
      refine ⟨helem l1 hl1, List.pairwise_singleton _ _, ?_⟩
      intro u hu b' hb'
      rw [List.mem_singleton] at hb'
      subst hb'
      rw [hl1eq] at hu
      rcases List.mem_append.mp hu with hu | hu
      · have hl1sorted := helem l1 hl1
        rw [hl1eq, List.Sorted, List.pairwise_append] at hl1sorted
        exact lt_trans (hl1sorted.2.2 u hu a (List.mem_singleton.mpr rfl)) hab
      · rw [List.mem_singleton] at hu
        subst hu
        exact hab
    have hclen : c.length = k := by
      rw [hceq', List.length_append, hlen1, List.length_singleton]
      omega
    refine ⟨hcsorted, hclen, ?_⟩
    exact (not_has_infrequent_subset_iff (by omega) hclen).mp hni
  · rintro ⟨hsorted, hclen, hclosed⟩
    obtain ⟨a, b, hd⟩ : ∃ a b, c.drop (k - 2) = [a, b] := by
      rw [← List.length_eq_two, List.length_drop, hclen]
      omega
    have htlen : (c.take (k - 2)).length = k - 2 := by
      rw [List.length_take, hclen]
      omega
    obtain ⟨t, htT, htlen2⟩ : ∃ t : List α, c = t ++ [a, b] ∧ t.length = k - 2 :=
      ⟨c.take (k - 2), by rw [← hd, List.take_append_drop], htlen⟩
    have hl1 : dropAt c (k - 1) = t ++ [a] := by
      unfold dropAt
      have hdk : c.drop ((k - 1) + 1) = [] := by
        rw [List.drop_eq_nil_iff]
        omega
      rw [hdk, List.append_nil, htT]
      rw [show k - 1 = t.length + 1 from by omega, List.take_append]
      rfl
    have hl2 : dropAt c (k - 2) = t ++ [b] := by
      unfold dropAt
      rw [htT, show k - 2 = t.length from by omega, List.take_left]
      congr 1
      rw [show (t ++ [a, b]).drop (t.length + 1) = List.drop 1 [a, b] from
        List.drop_append 1]
      rfl
    have hab : a < b := by
      rw [htT, List.Sorted, List.pairwise_append] at hsorted
      have h2 := hsorted.2.1
      rw [List.pairwise_cons] at h2
      exact h2.1 b (List.mem_singleton.mpr rfl)
    have hmem1 : dropAt c (k - 1) ∈ L := by
      refine hclosed _ (dropAt_sublist c _) ?_
      rw [length_dropAt (by omega), hclen]
    have hmem2 : dropAt c (k - 2) ∈ L := by
      refine hclosed _ (dropAt_sublist c _) ?_
      rw [length_dropAt (by omega), hclen]
    refine ⟨dropAt c (k - 1), hmem1, dropAt c (k - 2), hmem2, ?_, ?_, ?_, ?_⟩
    · rw [hl1, hl2]
      exact List.Lex.append_left _ (List.Lex.rel hab) _
    · rw [hl1, hl2, show k - 2 = t.length from by omega, List.take_left,
        List.take_left]
    · rw [hl1, hl2, show k - 2 = t.length from by omega, List.drop_left,
        List.append_assoc]
      exact htT
    · exact (not_has_infrequent_subset_iff (by omega) hclen).mpr hclosed


/-! ### Counting candidates over the dataset -/

theorem maxTransLen_bound {ds : List (List α)} {t : List α} (ht : t ∈ ds) :
    t.length ≤ maxTransLen ds := by
  induction ds with
  | nil => simp at ht
  | cons u ds ih =>
    rcases List.mem_cons.mp ht with rfl | ht
    · exact le_max_left _ _
    · exact le_trans (ih ht) (le_max_right _ _)

theorem card_le_maxTransLen {ds : List (List α)} {T : Finset α}
    (h : (coverF ds T).Nonempty) : T.card ≤ maxTransLen ds := by
  obtain ⟨t, ht, hsub⟩ := coverF_nonempty_iff.mp h
  calc T.card ≤ t.toFinset.card := Finset.card_le_card (fun a ha => by
        rw [List.mem_toFinset]; exact hsub a ha)
    _ ≤ t.length := List.toFinset_card_le t
    _ ≤ maxTransLen ds := maxTransLen_bound ht

theorem mem_levelOccs {ds : List (List α)} {C_k : List (List α)} {k : ℕ}
    {c : List α} :
    c ∈ levelOccs ds C_k k ↔
      ∃ t ∈ ds, ¬ t.length < k ∧
        c.Sublist (List.insertionSort (· ≤ ·) t) ∧ c.length = k ∧ c ∈ C_k := by
  unfold levelOccs transOccs
  rw [List.mem_flatMap]
  constructor
  · rintro ⟨t, ht, hc⟩
    by_cases hlen : t.length < k
    · rw [if_pos hlen] at hc
      simp at hc
    · rw [if_neg hlen] at hc
      rw [List.mem_filter] at hc
      rw [List.mem_sublistsLen] at hc
      exact ⟨t, ht, hlen, hc.1.1, hc.1.2, by simpa using hc.2⟩
  · rintro ⟨t, ht, hlen, hsub, hclen, hck⟩
    refine ⟨t, ht, ?_⟩
    rw [if_neg hlen, List.mem_filter, List.mem_sublistsLen]
    exact ⟨⟨hsub, hclen⟩, by simpa using hck⟩

theorem sorted_sublist_sort_iff {t c : List α} (ht : t.Nodup)
    (hc : c.Sorted (· < ·)) :
    c.Sublist (List.insertionSort (· ≤ ·) t) ↔ ∀ a ∈ c, a ∈ t := by
  have hperm := List.perm_insertionSort (· ≤ ·) t
  have hsortnd : (List.insertionSort (· ≤ ·) t).Nodup := hperm.nodup_iff.mpr ht
  have hsorted : (List.insertionSort (· ≤ ·) t).Sorted (· < ·) :=
    (List.sorted_insertionSort _ t).lt_of_le hsortnd
  constructor
  · intro h a ha
    exact hperm.mem_iff.mp (h.subset ha)
  · intro h
    exact sorted_lt_sublist hc hsorted (fun a ha => hperm.mem_iff.mpr (h a ha))

theorem count_transOccs {C_k : List (List α)} {k : ℕ} {c t : List α}
    (ht : t.Nodup) (hck : c ∈ C_k) (hcs : c.Sorted (· < ·)) (hclen : c.length = k) :
    (transOccs C_k k t).count c = if (∀ a ∈ c, a ∈ t) then 1 else 0 := by
  unfold transOccs
  by_cases hlen : t.length < k
  · rw [if_pos hlen]
    have hnot : ¬ ∀ a ∈ c, a ∈ t := by
      intro hall
      have h1 : c.toFinset.card = k := by
        rw [List.toFinset_card_of_nodup (sorted_lt_nodup hcs), hclen]
      have h2 : c.toFinset ⊆ t.toFinset := fun a ha => by
        rw [List.mem_toFinset] at ha ⊢
        exact hall a ha
      have := le_trans (h1 ▸ Finset.card_le_card h2) (List.toFinset_card_le t)
      omega
    rw [if_neg hnot]
    simp
  · rw [if_neg hlen]
    have hperm := List.perm_insertionSort (· ≤ ·) t
    have hsortnd : (List.insertionSort (· ≤ ·) t).Nodup := hperm.nodup_iff.mpr ht
    have hnodup : (List.sublistsLen k (List.insertionSort (· ≤ ·) t)).Nodup :=
      List.nodup_sublistsLen k hsortnd
    rw [List.count_filter (by simpa using hck)]
    by_cases hmem : c ∈ List.sublistsLen k (List.insertionSort (· ≤ ·) t)
    · rw [count_eq_one_of_nodup_mem hnodup hmem]
      rw [List.mem_sublistsLen] at hmem
      rw [if_pos ((sorted_sublist_sort_iff ht hcs).mp hmem.1)]
    · rw [List.count_eq_zero_of_not_mem hmem]
      have : ¬ ∀ a ∈ c, a ∈ t := by
        intro hall
        exact hmem (List.mem_sublistsLen.mpr
          ⟨(sorted_sublist_sort_iff ht hcs).mpr hall, hclen⟩)
      rw [if_neg this]

theorem count_levelOccs {ds : List (List α)} {C_k : List (List α)} {k : ℕ}
    {c : List α} (htrans : ∀ t ∈ ds, t.Nodup)
    (hck : c ∈ C_k) (hcs : c.Sorted (· < ·)) (hclen : c.length = k) :
    (levelOccs ds C_k k).count c = (coverL ds c).card := by
  rw [coverL, card_coverF]
  unfold levelOccs nContaining
  induction ds with
  | nil => simp
  | cons t ds ih =>
    have ht := htrans t (List.mem_cons.mpr (Or.inl rfl))
    have hds := fun u hu => htrans u (List.mem_cons.mpr (Or.inr hu))
    have hdec : (decide (∀ a ∈ c.toFinset, a ∈ t) = true) ↔ (∀ a ∈ c, a ∈ t) := by
      simp [List.mem_toFinset]
    rw [List.flatMap_cons, List.count_append, ih hds, List.filter_cons]
    rw [count_transOccs ht hck hcs hclen]
    by_cases hp : ∀ a ∈ c, a ∈ t
    · rw [if_pos hp, if_pos (hdec.mpr hp)]
      rw [List.length_cons]
      omega
    · rw [if_neg hp, if_neg (fun h => hp (hdec.mp h))]
      omega

theorem mem_candidates_counts {ds : List (List α)} {C_k : List (List α)} {k : ℕ}
    {p : List α × ℕ} :
    p ∈ candidates_counts ds C_k k ↔
      p.1 ∈ levelOccs ds C_k k ∧ p.2 = (levelOccs ds C_k k).count p.1 := by
  unfold candidates_counts
  rw [List.mem_map]
  constructor
  · rintro ⟨c, hc, rfl⟩
    rw [mem_firstDedup] at hc
    exact ⟨hc, rfl⟩
  · rintro ⟨hmem, hval⟩
    refine ⟨p.1, ?_, ?_⟩
    · rw [mem_firstDedup]
      exact hmem
    · exact Prod.ext rfl hval.symm

theorem candidates_counts_keys_nodup (ds : List (List α)) (C_k : List (List α))
    (k : ℕ) : ((candidates_counts ds C_k k).map Prod.fst).Nodup := by
  unfold candidates_counts
  rw [List.map_map]
  have heq : (Prod.fst ∘ fun c : List α =>
      (c, (levelOccs ds C_k k).count c)) = fun c => c := rfl
  rw [heq]
  have h2 : (firstDedup (levelOccs ds C_k k)).map (fun c => c) =
      firstDedup (levelOccs ds C_k k) := List.map_id' _
  rw [h2]
  exact nodup_firstDedup _

/-- The frequent size-`j` itemsets of the level-wise engine, as sorted lists:
strictly sorted, of length `j`, occurring in at least one transaction, with
support count reaching the threshold. -/
def FreqL (ds : List (List α)) (ms : ℚ) (j : ℕ) (l : List α) : Prop :=
  l.Sorted (· < ·) ∧ l.length = j ∧ (coverL ds l).Nonempty ∧
    ms ≤ (((coverL ds l).card : ℕ) : ℚ)

/-- The loop invariant of `Apriori.fit`: the current list `L` is strictly
sorted and holds exactly the frequent size-`j` itemsets. -/
def LInv (ds : List (List α)) (ms : ℚ) (j : ℕ) (L : List (List α)) : Prop :=
  L.Pairwise (· < ·) ∧ ∀ l, l ∈ L ↔ FreqL ds ms j l

theorem freqL_of_sublist {ds : List (List α)} {ms : ℚ} {j : ℕ} {l s : List α}
    (hl : FreqL ds ms j l) (hs : s.Sublist l) : FreqL ds ms s.length s := by
  obtain ⟨hsort, hlen, hne, hms⟩ := hl
  have hsub : coverL ds l ⊆ coverL ds s := by
    unfold coverL
    exact coverF_anti (fun a ha => by
      rw [List.mem_toFinset] at ha ⊢
      exact hs.subset ha)
  refine ⟨hsort.sublist hs, rfl, ?_, ?_⟩
  · obtain ⟨i, hi⟩ := hne
    exact ⟨i, hsub hi⟩
  · exact le_trans hms (by exact_mod_cast Finset.card_le_card hsub)


theorem mem_Ck_of_LInv {ds : List (List α)} {ms : ℚ} {k : ℕ} {L : List (List α)}
    {c : List α} (hk : 2 ≤ k) (hLI : LInv ds ms (k - 1) L) :
    c ∈ apriori_gen L k ↔
      c.Sorted (· < ·) ∧ c.length = k ∧
        ∀ s : List α, s.Sublist c → s.length = k - 1 → FreqL ds ms (k - 1) s := by
  obtain ⟨hpw, hmem⟩ := hLI
  rw [mem_apriori_gen_sets hk hpw
    (fun l hl => ((hmem l).mp hl).2.1) (fun l hl => ((hmem l).mp hl).1)]
  constructor
  · rintro ⟨h1, h2, h3⟩
    exact ⟨h1, h2, fun s hs hslen => (hmem s).mp (h3 s hs hslen)⟩
  · rintro ⟨h1, h2, h3⟩
    exact ⟨h1, h2, fun s hs hslen => (hmem s).mpr (h3 s hs hslen)⟩

theorem mem_freqs {ds : List (List α)} {ms : ℚ} {k : ℕ} {L : List (List α)}
    {p : List α × ℕ} (htrans : ∀ t ∈ ds, t.Nodup) (hk : 2 ≤ k)
    (hLI : LInv ds ms (k - 1) L) :
    p ∈ (candidates_counts ds (apriori_gen L k) k).filter
        (fun p => ms ≤ ((p.2 : ℕ) : ℚ)) ↔
      FreqL ds ms k p.1 ∧ p.2 = (coverL ds p.1).card := by
  rw [List.mem_filter]
  constructor
  · rintro ⟨hcc, hthr⟩
    rw [decide_eq_true_eq] at hthr
    obtain ⟨hocc, hval⟩ := mem_candidates_counts.mp hcc
    obtain ⟨t, ht, htlen, hsub, hclen, hck⟩ := mem_levelOccs.mp hocc
    have hcs : p.1.Sorted (· < ·) :=
      ((mem_Ck_of_LInv hk hLI).mp hck).1
    have hcount : (levelOccs ds (apriori_gen L k) k).count p.1 =
        (coverL ds p.1).card := count_levelOccs htrans hck hcs hclen
    have hperm := List.perm_insertionSort (· ≤ ·) t
    have hsubt : ∀ a ∈ p.1, a ∈ t :=
      fun a ha => hperm.mem_iff.mp (hsub.subset ha)
    have hcovne : (coverL ds p.1).Nonempty := by
      rw [coverL]
      refine coverF_nonempty_iff.mpr ⟨t, ht, ?_⟩
      intro a ha
      rw [List.mem_toFinset] at ha
      exact hsubt a ha
    refine ⟨⟨hcs, hclen, hcovne, ?_⟩, by rw [hval, hcount]⟩
    rw [← hcount, ← hval]
    exact hthr
  · rintro ⟨⟨hcs, hclen, hcovne, hms⟩, hval⟩
    have hck : p.1 ∈ apriori_gen L k := by
      rw [mem_Ck_of_LInv hk hLI]
      refine ⟨hcs, hclen, ?_⟩
      intro s hs hslen
      have := freqL_of_sublist ⟨hcs, hclen, hcovne, hms⟩ hs
      rwa [hslen] at this
    obtain ⟨t, ht, hsubt⟩ := coverF_nonempty_iff.mp hcovne
    have ht' := htrans t ht
    have hsubt' : ∀ a ∈ p.1, a ∈ t := fun a ha =>
      hsubt a (List.mem_toFinset.mpr ha)
    have hsub : p.1.Sublist (List.insertionSort (· ≤ ·) t) :=
      (sorted_sublist_sort_iff ht' hcs).mpr hsubt'
    have htlen : ¬ t.length < k := by
      have h1 := hsub.length_le
      have h2 := (List.perm_insertionSort (· ≤ ·) t).length_eq
      omega
    have hocc : p.1 ∈ levelOccs ds (apriori_gen L k) k :=
      mem_levelOccs.mpr ⟨t, ht, htlen, hsub, hclen, hck⟩
    have hcount : (levelOccs ds (apriori_gen L k) k).count p.1 =
        (coverL ds p.1).card := count_levelOccs htrans hck hcs hclen
    refine ⟨mem_candidates_counts.mpr ⟨hocc, by rw [hval, hcount]⟩, ?_⟩
    rw [decide_eq_true_eq, hval]
    exact hms

theorem LInv_next {ds : List (List α)} {ms : ℚ} {k : ℕ} {L : List (List α)}
    (htrans : ∀ t ∈ ds, t.Nodup) (hk : 2 ≤ k) (hLI : LInv ds ms (k - 1) L) :
    LInv ds ms k (List.insertionSort (· ≤ ·)
      (((candidates_counts ds (apriori_gen L k) k).filter
        (fun p => ms ≤ ((p.2 : ℕ) : ℚ))).map Prod.fst)) := by
  have hkeysnd : (((candidates_counts ds (apriori_gen L k) k).filter
      (fun p => ms ≤ ((p.2 : ℕ) : ℚ))).map Prod.fst).Nodup :=
    ((List.filter_sublist (candidates_counts ds (apriori_gen L k) k)).map
      Prod.fst).nodup (candidates_counts_keys_nodup ds _ k)
  have hperm := List.perm_insertionSort (· ≤ ·)
    (((candidates_counts ds (apriori_gen L k) k).filter
      (fun p => ms ≤ ((p.2 : ℕ) : ℚ))).map Prod.fst)
  constructor
  · have hnd : (List.insertionSort (· ≤ ·)
        (((candidates_counts ds (apriori_gen L k) k).filter
          (fun p => ms ≤ ((p.2 : ℕ) : ℚ))).map Prod.fst)).Nodup :=
      hperm.nodup_iff.mpr hkeysnd
    exact (List.sorted_insertionSort _ _).lt_of_le hnd
  · intro l
    rw [hperm.mem_iff, List.mem_map]
    constructor
    · rintro ⟨p, hp, rfl⟩
      exact ((mem_freqs htrans hk hLI).mp hp).1
    · intro hfl
      refine ⟨(l, (coverL ds l).card), ?_, rfl⟩
      exact (mem_freqs htrans hk hLI).mpr ⟨hfl, rfl⟩

theorem exists_freq_subset {ds : List (List α)} {ms : ℚ} {T : Finset α} {j : ℕ}
    (hj : j ≤ T.card) (hcov : (coverF ds T).Nonempty)
    (hms : ms ≤ (((coverF ds T).card : ℕ) : ℚ)) :
    ∃ l : List α, FreqL ds ms j l ∧ l.toFinset ⊆ T := by
  obtain ⟨U, hUT, hUcard⟩ := Finset.exists_subset_card_eq hj
  refine ⟨U.sort (· ≤ ·), ?_, ?_⟩
  · have hsorted : (U.sort (· ≤ ·)).Sorted (· < ·) :=
      (Finset.sort_sorted _ _).lt_of_le (Finset.sort_nodup _ _)
    have hlen : (U.sort (· ≤ ·)).length = j := by
      rw [Finset.length_sort]
      exact hUcard
    have hcovU : coverL ds (U.sort (· ≤ ·)) = coverF ds U := by
      rw [coverL, Finset.sort_toFinset]
    have hanti : coverF ds T ⊆ coverF ds U := coverF_anti hUT
    refine ⟨hsorted, hlen, ?_, ?_⟩
    · rw [hcovU]
      obtain ⟨i, hi⟩ := hcov
      exact ⟨i, hanti hi⟩
    · rw [hcovU]
      exact le_trans hms (by exact_mod_cast Finset.card_le_card hanti)
  · rw [Finset.sort_toFinset]
    exact hUT


theorem sorted_lists_eq_of_toFinset_eq {u v : List α} (hu : u.Sorted (· < ·))
    (hv : v.Sorted (· < ·)) (h : u.toFinset = v.toFinset) : u = v := by
  have hund := sorted_lt_nodup hu
  have hvnd := sorted_lt_nodup hv
  have hperm : u.Perm v := by
    rw [List.perm_ext_iff_of_nodup hund hvnd]
    intro a
    rw [← List.mem_toFinset, ← List.mem_toFinset, h]
  exact List.eq_of_perm_of_sorted hperm
    (hu.imp le_of_lt) (hv.imp le_of_lt)

theorem levelLoop_facts {ds : List (List α)} {ms : ℚ} {mi : ℕ}
    (htrans : ∀ t ∈ ds, t.Nodup) :
    ∀ (fuel k : ℕ) (L : List (List α)), 2 ≤ k → LInv ds ms (k - 1) L →
      (∀ S c, (S, c) ∈ levelLoop ds mi ms fuel k L →
        S.Sorted (· < ·) ∧ k ≤ S.length) ∧
      ((levelLoop ds mi ms fuel k L).map
        (fun q : List α × ℕ => q.1.toFinset)).Nodup := by
  intro fuel
  induction fuel with
  | zero =>
    intro k L _ _
    exact ⟨fun S c h => by simp [levelLoop] at h, by simp [levelLoop]⟩
  | succ fuel ih =>
    intro k L hk hLI
    have hunfold : levelLoop ds mi ms (fuel + 1) k L =
        if L.isEmpty then []
        else if (apriori_gen L k).isEmpty then []
        else
          (if mi ≤ k then (candidates_counts ds (apriori_gen L k) k).filter
            (fun p => ms ≤ ((p.2 : ℕ) : ℚ)) else []) ++
            levelLoop ds mi ms fuel (k + 1) (List.insertionSort (· ≤ ·)
              (((candidates_counts ds (apriori_gen L k) k).filter
                (fun p => ms ≤ ((p.2 : ℕ) : ℚ))).map Prod.fst)) := rfl
    by_cases hLe : L.isEmpty
    · rw [hunfold, if_pos hLe]
      exact ⟨fun S c h => by simp at h, by simp⟩
    · by_cases hCke : (apriori_gen L k).isEmpty
      · rw [hunfold, if_neg hLe, if_pos hCke]
        exact ⟨fun S c h => by simp at h, by simp⟩
      · rw [hunfold, if_neg hLe, if_neg hCke]
        have hLI' : LInv ds ms ((k + 1) - 1) (List.insertionSort (· ≤ ·)
            (((candidates_counts ds (apriori_gen L k) k).filter
              (fun p => ms ≤ ((p.2 : ℕ) : ℚ))).map Prod.fst)) := by
          have := LInv_next htrans hk hLI
          simpa using this
        obtain ⟨ihshape, ihnodup⟩ := ih (k + 1) _ (by omega) hLI'
        have hfreqchar : ∀ p ∈ (candidates_counts ds (apriori_gen L k) k).filter
            (fun p => ms ≤ ((p.2 : ℕ) : ℚ)),
            FreqL ds ms k p.1 ∧ p.2 = (coverL ds p.1).card :=
          fun p hp => (mem_freqs htrans hk hLI).mp hp
        have hkeysnd : (((candidates_counts ds (apriori_gen L k) k).filter
            (fun p => ms ≤ ((p.2 : ℕ) : ℚ))).map Prod.fst).Nodup :=
          ((List.filter_sublist (candidates_counts ds (apriori_gen L k) k)).map
            Prod.fst).nodup (candidates_counts_keys_nodup ds _ k)
        have hemit : ∀ S c, (S, c) ∈ (if mi ≤ k then
            (candidates_counts ds (apriori_gen L k) k).filter
              (fun p => ms ≤ ((p.2 : ℕ) : ℚ)) else []) →
            S.Sorted (· < ·) ∧ S.length = k ∧ c = (coverL ds S).card := by
          intro S c h
          by_cases hgate : mi ≤ k
          · rw [if_pos hgate] at h
            obtain ⟨⟨hs, hl, _, _⟩, hv⟩ := hfreqchar (S, c) h
            exact ⟨hs, hl, hv⟩
          · rw [if_neg hgate] at h
            simp at h
        constructor
        · intro S c h
          rcases List.mem_append.mp h with h | h
          · obtain ⟨hs, hl, _⟩ := hemit S c h
            exact ⟨hs, by omega⟩
          · obtain ⟨hs, hl⟩ := ihshape S c h
            exact ⟨hs, by omega⟩
        · rw [List.map_append]
          refine List.Nodup.append ?_ ihnodup ?_
          · by_cases hgate : mi ≤ k
            · rw [if_pos hgate]
              have hFnd : ((candidates_counts ds (apriori_gen L k) k).filter
                  (fun p => ms ≤ ((p.2 : ℕ) : ℚ))).Nodup := hkeysnd.of_map
              refine hFnd.map_on ?_
              intro p hp q hq hEq
              have hp' := hfreqchar p hp
              have hq' := hfreqchar q hq
              have h1 : p.1 = q.1 :=
                sorted_lists_eq_of_toFinset_eq hp'.1.1 hq'.1.1 hEq
              have h2 : p.2 = q.2 := by
                rw [hp'.2, hq'.2, h1]
              exact Prod.ext h1 h2
            · rw [if_neg hgate]
              simp
          · intro T hT1 hT2
            obtain ⟨⟨S, c⟩, hmem1, rfl⟩ := List.mem_map.mp hT1
            obtain ⟨⟨S', c'⟩, hmem2, hT2eq⟩ := List.mem_map.mp hT2
            obtain ⟨hs, hl, _⟩ := hemit S c hmem1
            obtain ⟨hs', hl'⟩ := ihshape S' c' hmem2
            have hcard1 : S.toFinset.card = k := by
              rw [List.toFinset_card_of_nodup (sorted_lt_nodup hs), hl]
            have hcard2 : k + 1 ≤ S'.toFinset.card := by
              rw [List.toFinset_card_of_nodup (sorted_lt_nodup hs')]
              omega
            have hT2eq' : S'.toFinset = S.toFinset := hT2eq
            rw [hT2eq'] at hcard2
            omega


theorem levelLoop_mem {ds : List (List α)} {ms : ℚ} {mi : ℕ}
    (htrans : ∀ t ∈ ds, t.Nodup) :
    ∀ (fuel k : ℕ) (L : List (List α)), 2 ≤ k →
      maxTransLen ds + 3 ≤ fuel + k → LInv ds ms (k - 1) L →
      ∀ (T : Finset α) (c : ℕ),
        ((T, c) ∈ (levelLoop ds mi ms fuel k L).map
          (fun q : List α × ℕ => (q.1.toFinset, q.2)) ↔
        (k ≤ T.card ∧ (coverF ds T).Nonempty ∧
          ms ≤ (((coverF ds T).card : ℕ) : ℚ) ∧ mi ≤ T.card ∧
          c = (coverF ds T).card)) := by
  intro fuel
  induction fuel with
  | zero =>
    intro k L hk hfuel hLI T c
    constructor
    · intro h
      simp [levelLoop] at h
    · rintro ⟨hkc, hcov, _, _, _⟩
      exfalso
      have := card_le_maxTransLen hcov
      omega
  | succ fuel ih =>
    intro k L hk hfuel hLI T c
    have hunfold : levelLoop ds mi ms (fuel + 1) k L =
        if L.isEmpty then []
        else if (apriori_gen L k).isEmpty then []
        else
          (if mi ≤ k then (candidates_counts ds (apriori_gen L k) k).filter
            (fun p => ms ≤ ((p.2 : ℕ) : ℚ)) else []) ++
            levelLoop ds mi ms fuel (k + 1) (List.insertionSort (· ≤ ·)
              (((candidates_counts ds (apriori_gen L k) k).filter
                (fun p => ms ≤ ((p.2 : ℕ) : ℚ))).map Prod.fst)) := rfl
    by_cases hLe : L.isEmpty
    · rw [hunfold, if_pos hLe]
      constructor
      · intro h
        simp at h
      · rintro ⟨hkc, hcov, hms, _, _⟩
        exfalso
        obtain ⟨l, hfl, _⟩ := exists_freq_subset (j := k - 1) (by omega) hcov hms
        have hl : l ∈ L := (hLI.2 l).mpr hfl
        rw [List.isEmpty_iff.mp hLe] at hl
        simp at hl
    · by_cases hCke : (apriori_gen L k).isEmpty
      · rw [hunfold, if_neg hLe, if_pos hCke]
        constructor
        · intro h
          simp at h
        · rintro ⟨hkc, hcov, hms, _, _⟩
          exfalso
          obtain ⟨l, hfl, _⟩ := exists_freq_subset (j := k) (by omega) hcov hms
          have hl : l ∈ apriori_gen L k := by
            rw [mem_Ck_of_LInv hk hLI]
            refine ⟨hfl.1, hfl.2.1, ?_⟩
            intro s hs hslen
            have := freqL_of_sublist hfl hs
            rwa [hslen] at this
          rw [List.isEmpty_iff.mp hCke] at hl
          simp at hl
      · rw [hunfold, if_neg hLe, if_neg hCke, List.map_append, List.mem_append]
        have hLI' : LInv ds ms ((k + 1) - 1) (List.insertionSort (· ≤ ·)
            (((candidates_counts ds (apriori_gen L k) k).filter
              (fun p => ms ≤ ((p.2 : ℕ) : ℚ))).map Prod.fst)) := by
          have := LInv_next htrans hk hLI
          simpa using this
        have hrec := ih (k + 1) _ (by omega) (by omega) hLI' T c
        have hemit : (T, c) ∈ ((if mi ≤ k then
            (candidates_counts ds (apriori_gen L k) k).filter
              (fun p => ms ≤ ((p.2 : ℕ) : ℚ)) else []).map
                (fun q : List α × ℕ => (q.1.toFinset, q.2))) ↔
            (T.card = k ∧ (coverF ds T).Nonempty ∧
              ms ≤ (((coverF ds T).card : ℕ) : ℚ) ∧ mi ≤ T.card ∧
              c = (coverF ds T).card) := by
          constructor
          · intro h
            by_cases hgate : mi ≤ k
            · rw [if_pos hgate] at h
              obtain ⟨p, hp, hpe⟩ := List.mem_map.mp h
              obtain ⟨⟨hs, hl, hcov, hms⟩, hv⟩ := (mem_freqs htrans hk hLI).mp hp
              have hT : p.1.toFinset = T := congrArg Prod.fst hpe
              have hc : p.2 = c := congrArg Prod.snd hpe
              have hTcard : T.card = k := by
                rw [← hT, List.toFinset_card_of_nodup (sorted_lt_nodup hs), hl]
              have hcovT : coverL ds p.1 = coverF ds T := by
                rw [coverL, hT]
              refine ⟨hTcard, ?_, ?_, by omega, ?_⟩
              · rw [← hcovT]
                exact hcov
              · rw [← hcovT]
                exact hms
              · rw [← hc, hv, hcovT]
            · rw [if_neg hgate] at h
              simp at h
          · rintro ⟨hck, hcov, hms, hmi', hc⟩
            have hgate : mi ≤ k := by omega
            rw [if_pos hgate]
            have hsorted : (T.sort (· ≤ ·)).Sorted (· < ·) :=
              (Finset.sort_sorted _ _).lt_of_le (Finset.sort_nodup _ _)
            have hcovT : coverL ds (T.sort (· ≤ ·)) = coverF ds T := by
              rw [coverL, Finset.sort_toFinset]
            refine List.mem_map.mpr
              ⟨(T.sort (· ≤ ·), (coverL ds (T.sort (· ≤ ·))).card), ?_, ?_⟩
            · refine (mem_freqs htrans hk hLI).mpr ⟨⟨hsorted, ?_, ?_, ?_⟩, rfl⟩
              · rw [Finset.length_sort]
                exact hck
              · rw [hcovT]
                exact hcov
              · rw [hcovT]
                exact hms
            · refine Prod.ext ?_ ?_
              · show (T.sort (· ≤ ·)).toFinset = T
                exact Finset.sort_toFinset _ _
              · show (coverL ds (T.sort (· ≤ ·))).card = c
                rw [hcovT, hc]
        constructor
        · rintro (h | h)
          · obtain ⟨hck, hcov, hms, hmi', hc⟩ := hemit.mp h
            exact ⟨by omega, hcov, hms, hmi', hc⟩
          · obtain ⟨hck, hcov, hms, hmi', hc⟩ := hrec.mp h
            exact ⟨by omega, hcov, hms, hmi', hc⟩
        · rintro ⟨hkc, hcov, hms, hmi', hc⟩
          rcases eq_or_lt_of_le hkc with heq | hlt
          · exact Or.inl (hemit.mpr ⟨heq.symm, hcov, hms, hmi', hc⟩)
          · exact Or.inr (hrec.mpr ⟨by omega, hcov, hms, hmi', hc⟩)


/-! ### Assembling `Apriori.fit` -/

theorem mem_L1freq {ds : List (List α)} {ms : ℚ} {p : α × ℕ}
    (htrans : ∀ t ∈ ds, t.Nodup) :
    p ∈ L1freq ms ds ↔
      p.1 ∈ allItems ds ∧ p.2 = (coverF ds {p.1}).card ∧
        ms ≤ (((coverF ds {p.1}).card : ℕ) : ℚ) := by
  unfold L1freq
  rw [List.mem_filter]
  rw [mem_item_counts]
  constructor
  · rintro ⟨⟨hall, hval⟩, hthr⟩
    rw [decide_eq_true_eq] at hthr
    rw [count_itemOccs ds htrans p.1] at hval
    exact ⟨hall, hval, by rw [← hval]; exact hthr⟩
  · rintro ⟨hall, hval, hthr⟩
    rw [← count_itemOccs ds htrans p.1] at hval
    refine ⟨⟨hall, hval⟩, ?_⟩
    rw [decide_eq_true_eq, hval, count_itemOccs ds htrans p.1]
    exact hthr

theorem L1freq_keys_nodup (ds : List (List α)) (ms : ℚ) :
    ((L1freq ms ds).map Prod.fst).Nodup :=
  ((List.filter_sublist (item_counts ds)).map Prod.fst).nodup
    (item_counts_keys_nodup ds)

theorem freqL_one_iff {ds : List (List α)} {ms : ℚ} {l : List α} :
    FreqL ds ms 1 l ↔ ∃ a : α,
      l = [a] ∧ (coverF ds {a}).Nonempty ∧
        ms ≤ (((coverF ds {a}).card : ℕ) : ℚ) := by
  constructor
  · rintro ⟨hs, hl, hcov, hms⟩
    obtain ⟨a, rfl⟩ := List.length_eq_one.mp hl
    have hc : coverL ds [a] = coverF ds {a} := by
      simp [coverL]
    rw [hc] at hcov hms
    exact ⟨a, rfl, hcov, hms⟩
  · rintro ⟨a, rfl, hcov, hms⟩
    have hc : coverL ds [a] = coverF ds {a} := by
      simp [coverL]
    exact ⟨List.sorted_singleton a, rfl, by rw [hc]; exact hcov, by rw [hc]; exact hms⟩

theorem LInv_L1 {ds : List (List α)} {ms : ℚ}
    (htrans : ∀ t ∈ ds, t.Nodup) :
    LInv ds ms 1 (List.insertionSort (· ≤ ·)
      ((L1freq ms ds).map (fun p => [p.1]))) := by
  have hperm := List.perm_insertionSort (· ≤ ·)
    ((L1freq ms ds).map (fun p => [p.1]))
  have hnd : ((L1freq ms ds).map (fun p : α × ℕ => [p.1])).Nodup := by
    have h1 := L1freq_keys_nodup ds ms
    have h2 : (L1freq ms ds).map (fun p : α × ℕ => [p.1]) =
        ((L1freq ms ds).map Prod.fst).map (fun a => [a]) := by
      rw [List.map_map]
      rfl
    rw [h2]
    exact h1.map (fun a b h => by simpa using h)
  constructor
  · exact (List.sorted_insertionSort _ _).lt_of_le (hperm.nodup_iff.mpr hnd)
  · intro l
    rw [hperm.mem_iff, List.mem_map, freqL_one_iff]
    constructor
    · rintro ⟨p, hp, rfl⟩
      obtain ⟨hall, _, hthr⟩ := (mem_L1freq htrans).mp hp
      exact ⟨p.1, rfl, coverF_singleton_nonempty_iff.mpr hall, hthr⟩
    · rintro ⟨a, rfl, hcov, hms⟩
      refine ⟨(a, (coverF ds {a}).card), ?_, rfl⟩
      exact (mem_L1freq htrans).mpr
        ⟨coverF_singleton_nonempty_iff.mp hcov, rfl, hms⟩

theorem apFitAux_eq (ms : ℚ) (mi : ℕ) (ds : List (List α)) :
    fitAux ms mi ds =
      (if mi ≤ 1 then (L1freq ms ds).map (fun p => ([p.1], p.2)) else []) ++
        levelLoop ds mi ms (maxTransLen ds + 2) 2
          (List.insertionSort (· ≤ ·)
            ((L1freq ms ds).map (fun p => [p.1]))) := rfl

theorem emit1_mem {ds : List (List α)} {ms : ℚ} {mi : ℕ} {T : Finset α} {c : ℕ}
    (htrans : ∀ t ∈ ds, t.Nodup) :
    ((T, c) ∈ ((if mi ≤ 1 then (L1freq ms ds).map (fun p => ([p.1], p.2))
        else []).map (fun q : List α × ℕ => (q.1.toFinset, q.2))) ↔
      (T.card = 1 ∧ (coverF ds T).Nonempty ∧
        ms ≤ (((coverF ds T).card : ℕ) : ℚ) ∧ mi ≤ T.card ∧
        c = (coverF ds T).card)) := by
  constructor
  · intro h
    by_cases hgate : mi ≤ 1
    · rw [if_pos hgate] at h
      rw [List.map_map] at h
      obtain ⟨p, hp, hpe⟩ := List.mem_map.mp h
      obtain ⟨hall, hval, hthr⟩ := (mem_L1freq htrans).mp hp
      have hT : ({p.1} : Finset α) = T := by
        have := congrArg Prod.fst hpe
        simpa using this
      have hc : p.2 = c := congrArg Prod.snd hpe
      refine ⟨by rw [← hT]; simp, ?_, ?_, ?_, ?_⟩
      · rw [← hT]
        exact coverF_singleton_nonempty_iff.mpr hall
      · rw [← hT]
        exact hthr
      · have : T.card = 1 := by rw [← hT]; simp
        omega
      · rw [← hc, hval, hT]
    · rw [if_neg hgate] at h
      simp at h
  · rintro ⟨hcard, hcov, hms, hmi, hc⟩
    obtain ⟨a, rfl⟩ := Finset.card_eq_one.mp hcard
    have hgate : mi ≤ 1 := by omega
    rw [if_pos hgate, List.map_map]
    refine List.mem_map.mpr ⟨(a, (coverF ds {a}).card), ?_, ?_⟩
    · exact (mem_L1freq htrans).mpr
        ⟨coverF_singleton_nonempty_iff.mp hcov, rfl, hms⟩
    · refine Prod.ext ?_ ?_
      · show ([a] : List α).toFinset = ({a} : Finset α)
        simp
      · show (coverF ds {a}).card = c
        rw [hc]

theorem apFitAux_mem {ds : List (List α)} {ms : ℚ} {mi : ℕ} {T : Finset α} {c : ℕ}
    (htrans : ∀ t ∈ ds, t.Nodup) :
    ((T, c) ∈ (fitAux ms mi ds).map
        (fun q : List α × ℕ => (q.1.toFinset, q.2)) ↔
      (T.Nonempty ∧ (coverF ds T).Nonempty ∧
        ms ≤ (((coverF ds T).card : ℕ) : ℚ) ∧ mi ≤ T.card ∧
        c = (coverF ds T).card)) := by
  have hLIL1 : LInv ds ms (2 - 1) (List.insertionSort (· ≤ ·)
      ((L1freq ms ds).map (fun p => [p.1]))) := LInv_L1 htrans
  rw [apFitAux_eq, List.map_append, List.mem_append]
  rw [emit1_mem htrans]
  rw [levelLoop_mem htrans (maxTransLen ds + 2) 2 _ (by omega) (by omega)
    hLIL1 T c]
  constructor
  · rintro (⟨h1, h2, h3, h4, h5⟩ | ⟨h1, h2, h3, h4, h5⟩)
    · exact ⟨Finset.card_pos.mp (by omega), h2, h3, h4, h5⟩
    · exact ⟨Finset.card_pos.mp (by omega), h2, h3, h4, h5⟩
  · rintro ⟨h1, h2, h3, h4, h5⟩
    have hpos : 1 ≤ T.card := Finset.card_pos.mpr h1
    rcases eq_or_lt_of_le hpos with heq | hlt
    · exact Or.inl ⟨heq.symm, h2, h3, h4, h5⟩
    · exact Or.inr ⟨by omega, h2, h3, h4, h5⟩

theorem apFitAux_nodup {ds : List (List α)} (ms : ℚ) (mi : ℕ)
    (htrans : ∀ t ∈ ds, t.Nodup) :
    ((fitAux ms mi ds).map (fun q : List α × ℕ => q.1.toFinset)).Nodup := by
  have hLIL1 : LInv ds ms (2 - 1) (List.insertionSort (· ≤ ·)
      ((L1freq ms ds).map (fun p => [p.1]))) := LInv_L1 htrans
  rw [apFitAux_eq, List.map_append]
  obtain ⟨hshape, hnodup⟩ := levelLoop_facts htrans (maxTransLen ds + 2) 2 _
    (by omega) hLIL1
  refine List.Nodup.append ?_ hnodup ?_
  · by_cases hgate : mi ≤ 1
    · rw [if_pos hgate, List.map_map]
      have h1 := L1freq_keys_nodup ds ms
      have h2 : ((L1freq ms ds).map
          ((fun q : List α × ℕ => q.1.toFinset) ∘ (fun p => ([p.1], p.2)))) =
          ((L1freq ms ds).map Prod.fst).map (fun a => ({a} : Finset α)) := by
        rw [List.map_map]
        refine List.map_congr_left ?_
        intro p _
        show ([p.1] : List α).toFinset = {p.1}
        simp
      rw [h2]
      exact h1.map (fun a b h => by simpa using h)
    · rw [if_neg hgate]
      simp
  · intro T hT1 hT2
    obtain ⟨⟨S', c'⟩, hmem2, hT2eq⟩ := List.mem_map.mp hT2
    obtain ⟨hs', hl'⟩ := hshape S' c' hmem2
    have hcard2 : 2 ≤ S'.toFinset.card := by
      rw [List.toFinset_card_of_nodup (sorted_lt_nodup hs')]
      omega
    have hcard1 : T.card = 1 := by
      by_cases hgate : mi ≤ 1
      · rw [if_pos hgate, List.map_map] at hT1
        obtain ⟨p, _, hpe⟩ := List.mem_map.mp hT1
        have : ([p.1] : List α).toFinset = T := hpe
        rw [← this]
        simp
      · rw [if_neg hgate] at hT1
        simp at hT1
    have hT2eq' : S'.toFinset = T := hT2eq
    rw [hT2eq'] at hcard2
    omega


end Apriori

namespace Utils

variable {α : Type} [LinearOrder α]

theorem except_bind_ok {ε β γ : Type} (a : β) (f : β → Except ε γ) :
    (Except.ok a : Except ε β) >>= f = f a := rfl

theorem except_bind_error {ε β γ : Type} (e : ε) (f : β → Except ε γ) :
    (Except.error e : Except ε β) >>= f = Except.error e := rfl

theorem mapM_ok_of_forall {ε β γ : Type} (f : β → Except ε γ) :
    ∀ l : List β, (∀ x ∈ l, ∃ y, f x = .ok y) → ∃ ys, l.mapM f = .ok ys := by
  intro l
  induction l with
  | nil => intro _; exact ⟨[], rfl⟩
  | cons x l ih =>
    intro h
    obtain ⟨y, hy⟩ := h x (List.mem_cons.mpr (Or.inl rfl))
    obtain ⟨ys, hys⟩ := ih (fun x hx => h x (List.mem_cons.mpr (Or.inr hx)))
    refine ⟨y :: ys, ?_⟩
    rw [List.mapM_cons, hy, except_bind_ok, hys, except_bind_ok]
    rfl

theorem mapM_mem_ok {ε β γ : Type} (f : β → Except ε γ) :
    ∀ (l : List β) (ys : List γ), l.mapM f = .ok ys →
      ∀ y ∈ ys, ∃ x ∈ l, f x = .ok y := by
  intro l
  induction l with
  | nil =>
    intro ys h y hy
    rw [List.mapM_nil] at h
    obtain rfl : ([] : List γ) = ys := Except.ok.inj h
    simp at hy
  | cons x l ih =>
    intro ys h y hy
    rw [List.mapM_cons] at h
    rcases hx : f x with e | z
    · rw [hx, except_bind_error] at h
      exact Except.noConfusion h
    · rw [hx, except_bind_ok] at h
      rcases hl : l.mapM f with e | zs
      · rw [hl, except_bind_error] at h
        exact Except.noConfusion h
      · rw [hl, except_bind_ok] at h
        obtain rfl : z :: zs = ys := Except.ok.inj h
        rcases List.mem_cons.mp hy with rfl | hy
        · exact ⟨x, List.mem_cons.mpr (Or.inl rfl), hx⟩
        · obtain ⟨x', hx', hfx'⟩ := ih zs hl y hy
          exact ⟨x', List.mem_cons.mpr (Or.inr hx'), hfx'⟩

theorem mapM_error_of_mem {ε β γ : Type} (f : β → Except ε γ) (e : ε) :
    ∀ l : List β, (∀ x ∈ l, (∃ y, f x = .ok y) ∨ f x = .error e) →
      (∃ x ∈ l, f x = .error e) → l.mapM f = .error e := by
  intro l
  induction l with
  | nil =>
    rintro _ ⟨x, hx, _⟩
    simp at hx
  | cons x l ih =>
    rintro hall ⟨x', hx', hfx'⟩
    rw [List.mapM_cons]
    rcases hall x (List.mem_cons.mpr (Or.inl rfl)) with ⟨y, hy⟩ | herr
    · rw [hy, except_bind_ok]
      have hx'l : x' ∈ l := by
        rcases List.mem_cons.mp hx' with rfl | h
        · rw [hy] at hfx'
          exact Except.noConfusion hfx'
        · exact h
      rw [ih (fun z hz => hall z (List.mem_cons.mpr (Or.inr hz))) ⟨x', hx'l, hfx'⟩,
        except_bind_error]
    · rw [herr, except_bind_error]

theorem pydiv_ok {a b : ℚ} (hb : b ≠ 0) : pydiv a b = .ok (a / b) := by
  rw [pydiv, if_neg hb]

theorem pydiv_zero (a : ℚ) : pydiv a 0 = .error "ZeroDivisionError" := by
  rw [pydiv, if_pos rfl]

theorem processSplit_ok {tbl : List (List α × ℕ)} {total : ℕ} {mc : ℚ}
    {itemset : List α} {sAB : ℚ} {ant : List α} (htot : total ≠ 0) :
    ∃ v, processSplit tbl total mc itemset sAB ant = .ok v := by
  have hcast : ((total : ℕ) : ℚ) ≠ 0 := Nat.cast_ne_zero.mpr htot
  have hpure : ∀ q : ℚ, (pure q : Except String ℚ) = Except.ok q := fun _ => rfl
  rw [processSplit]
  simp only [pydiv_ok hcast, hpure, except_bind_ok]
  split
  · exact ⟨none, rfl⟩
  · split
    · rename_i hpos
      simp only [pydiv_ok (ne_of_gt hpos), except_bind_ok]
      split
      · split
        · split
          · rename_i hposB
            simp only [pydiv_ok (ne_of_gt hposB), except_bind_ok]
            exact ⟨_, rfl⟩
          · exact ⟨_, rfl⟩
        · exact ⟨_, rfl⟩
      · exact ⟨_, rfl⟩
    · split
      · split
        · split
          · rename_i hposB
            simp only [pydiv_ok (ne_of_gt hposB), except_bind_ok]
            exact ⟨_, rfl⟩
          · exact ⟨_, rfl⟩
        · exact ⟨_, rfl⟩
      · exact ⟨_, rfl⟩

theorem rulesFor_small {tbl : List (List α × ℕ)} {total : ℕ} {mc : ℚ}
    {itemset : List α} {cAB : ℕ} (h : itemset.length < 2) :
    rulesFor tbl total mc itemset cAB = .ok [] := by
  rw [rulesFor, if_pos h]; rfl

theorem rulesFor_ok {tbl : List (List α × ℕ)} {total : ℕ} {mc : ℚ}
    {itemset : List α} {cAB : ℕ} (htot : total ≠ 0) :
    ∃ rs, rulesFor tbl total mc itemset cAB = .ok rs := by
  by_cases hlen : itemset.length < 2
  · exact ⟨[], rulesFor_small hlen⟩
  · have hcast : ((total : ℕ) : ℚ) ≠ 0 := Nat.cast_ne_zero.mpr htot
    rw [rulesFor, if_neg hlen]
    simp only [pydiv_ok hcast, except_bind_ok]
    obtain ⟨opts, hopts⟩ := mapM_ok_of_forall
      (processSplit tbl total mc itemset ((cAB : ℚ) / (total : ℚ)))
      ((List.range' 1 (itemset.length - 1)).flatMap
        (fun r => List.sublistsLen r itemset))
      (fun ant _ => processSplit_ok htot)
    rw [hopts, except_bind_ok]
    exact ⟨_, rfl⟩

theorem rulesFor_zero {tbl : List (List α × ℕ)} {mc : ℚ}
    {itemset : List α} {cAB : ℕ} (hlen : 2 ≤ itemset.length) :
    rulesFor tbl 0 mc itemset cAB = .error "ZeroDivisionError" := by
  rw [rulesFor, if_neg (by omega)]
  rw [show ((0 : ℕ) : ℚ) = 0 from rfl, pydiv_zero, except_bind_error]

theorem processSplit_none {tbl : List (List α × ℕ)} {total : ℕ} {mc : ℚ}
    {itemset : List α} {sAB : ℚ} {ant : List α}
    (h : lookupGet tbl (sortKey ant) = none) :
    processSplit tbl total mc itemset sAB ant = .ok none := by
  unfold processSplit
  rw [h]
  rfl

theorem processSplit_some_facts {tbl : List (List α × ℕ)} {total : ℕ} {mc : ℚ}
    {itemset : List α} {sAB : ℚ} {ant : List α} {r : Rule α}
    (hr : processSplit tbl total mc itemset sAB ant = .ok (some r)) :
    (∃ cA, lookupGet tbl (sortKey ant) = some cA) ∧
    (lookupGet tbl (sortKey (itemset.filter (fun x => decide (x ∉ ant)))) = none →
      r.lift = 0) := by
  have hpure : ∀ q : ℚ, (pure q : Except String ℚ) = Except.ok q := fun _ => rfl
  rcases hA : lookupGet tbl (sortKey ant) with _ | cA
  · rw [processSplit_none hA] at hr
    exact absurd (Except.ok.inj hr) (by simp)
  · refine ⟨⟨cA, rfl⟩, ?_⟩
    intro hB
    unfold processSplit at hr
    simp only [hA] at hr
    by_cases htot : ((total : ℕ) : ℚ) = 0
    · rw [pydiv, if_pos htot, except_bind_error] at hr
      exact Except.noConfusion hr
    · simp only [pydiv_ok htot, except_bind_ok, hB, hpure] at hr
      split at hr
      · rename_i hpos
        simp only [pydiv_ok (ne_of_gt hpos), except_bind_ok] at hr
        have h2 := Except.ok.inj hr
        split at h2
        · rw [← Option.some.inj h2]
        · exact Option.noConfusion h2
      · have h2 := Except.ok.inj hr
        split at h2
        · rw [← Option.some.inj h2]
        · exact Option.noConfusion h2

end Utils

/-! ## The `min_itemset_size` gate is a pure output filter -/

section MinItems

variable {α : Type} [LinearOrder α]

theorem eclatRecursive_minItems (mi : ℕ) (ms : ℚ) :
    ∀ (fuel : ℕ) (pre : List α) (items : List (α × Finset ℕ)),
      Eclat.eclatRecursive mi ms fuel pre items =
        (Eclat.eclatRecursive 1 ms fuel pre items).filter
          (fun p => decide (mi ≤ p.1.length)) := by
  intro fuel
  induction fuel with
  | zero => intro pre items; rfl
  | succ fuel ih =>
    intro pre items
    cases items with
    | nil => rfl
    | cons q rest =>
      obtain ⟨it, tids⟩ := q
      have hlen : 1 ≤ (pre ++ [it]).length := by
        simp
      show (if mi ≤ (pre ++ [it]).length
            then [((pre ++ [it] : List α), tids.card)] else []) ++
          Eclat.eclatRecursive mi ms fuel (pre ++ [it])
            (Eclat.nextItems ms tids rest) ++
          Eclat.eclatRecursive mi ms fuel pre rest =
        ((if 1 ≤ (pre ++ [it]).length
            then [((pre ++ [it] : List α), tids.card)] else []) ++
          Eclat.eclatRecursive 1 ms fuel (pre ++ [it])
            (Eclat.nextItems ms tids rest) ++
          Eclat.eclatRecursive 1 ms fuel pre rest).filter
          (fun p => decide (mi ≤ p.1.length))
      rw [List.filter_append, List.filter_append,
        ← ih (pre ++ [it]) (Eclat.nextItems ms tids rest), ← ih pre rest,
        if_pos hlen, List.filter_singleton]
      by_cases hmi : mi ≤ (pre ++ [it]).length
      · simp [hmi]
      · simp [hmi]

theorem eclat_fit_minItems (s : ℚ) (mi : ℕ) (ds : List (List α)) :
    Eclat.fit s mi ds =
      (Eclat.fit s 1 ds).filter (fun p => decide (mi ≤ p.1.length)) := by
  rw [Eclat.fit, Eclat.fit, Eclat.fitAux_eq, Eclat.fitAux_eq]
  exact eclatRecursive_minItems mi _ _ _ _

theorem levelLoop_minItems (ds : List (List α)) (mi : ℕ) (ms : ℚ) :
    ∀ (fuel k : ℕ) (L : List (List α)), 1 ≤ k →
      Apriori.levelLoop ds mi ms fuel k L =
        (Apriori.levelLoop ds 1 ms fuel k L).filter
          (fun p => decide (mi ≤ p.1.length)) := by
  intro fuel
  induction fuel with
  | zero => intro k L _; rfl
  | succ fuel ih =>
    intro k L hk
    have hu : ∀ mj : ℕ, Apriori.levelLoop ds mj ms (fuel + 1) k L =
        if L.isEmpty then []
        else if (Apriori.apriori_gen L k).isEmpty then []
        else
          (if mj ≤ k then
            (Apriori.candidates_counts ds (Apriori.apriori_gen L k) k).filter
              (fun p => ms ≤ ((p.2 : ℕ) : ℚ)) else []) ++
            Apriori.levelLoop ds mj ms fuel (k + 1) (List.insertionSort (· ≤ ·)
              (((Apriori.candidates_counts ds (Apriori.apriori_gen L k) k).filter
                (fun p => ms ≤ ((p.2 : ℕ) : ℚ))).map Prod.fst)) := fun mj => rfl
    rw [hu mi, hu 1]
    by_cases hLe : L.isEmpty
    · rw [if_pos hLe, if_pos hLe]
      rfl
    · rw [if_neg hLe, if_neg hLe]
      by_cases hCe : (Apriori.apriori_gen L k).isEmpty
      · rw [if_pos hCe, if_pos hCe]
        rfl
      · rw [if_neg hCe, if_neg hCe, List.filter_append,
          ← ih (k + 1) _ (by omega)]
        congr 1
        have hfk : ∀ p ∈ (Apriori.candidates_counts ds
            (Apriori.apriori_gen L k) k).filter
            (fun p => ms ≤ ((p.2 : ℕ) : ℚ)), p.1.length = k := by
          intro p hp
          have hp' := (List.mem_filter.mp hp).1
          have h1 := (Apriori.mem_candidates_counts.mp hp').1
          obtain ⟨t, _, _, _, hlenk, _⟩ := Apriori.mem_levelOccs.mp h1
          exact hlenk
        rw [if_pos hk]
        by_cases hmi : mi ≤ k
        · rw [if_pos hmi]
          refine (List.filter_eq_self.mpr ?_).symm
          intro p hp
          simp only [decide_eq_true_eq]
          rw [hfk p hp]
          exact hmi
        · rw [if_neg hmi]
          refine (List.filter_eq_nil_iff.mpr ?_).symm
          intro p hp
          simp only [decide_eq_true_eq]
          rw [hfk p hp]
          exact hmi

theorem apriori_fit_minItems (s : ℚ) (mi : ℕ) (ds : List (List α)) :
    Apriori.fit s mi ds =
      (Apriori.fit s 1 ds).filter (fun p => decide (mi ≤ p.1.length)) := by
  rw [Apriori.fit, Apriori.fit, Apriori.apFitAux_eq, Apriori.apFitAux_eq,
    List.filter_append, ← levelLoop_minItems ds mi _ _ 2 _ (by omega)]
  congr 1
  rw [if_pos (le_refl 1)]
  by_cases hmi : mi ≤ 1
  · rw [if_pos hmi]
    refine (List.filter_eq_self.mpr ?_).symm
    intro p hp
    obtain ⟨q, hq, rfl⟩ := List.mem_map.mp hp
    simp [hmi]
  · rw [if_neg hmi]
    refine (List.filter_eq_nil_iff.mpr ?_).symm
    intro p hp
    obtain ⟨q, hq, rfl⟩ := List.mem_map.mp hp
    simp [hmi]

end MinItems

/-! ## The claims -/

section Claims

variable {α : Type} [LinearOrder α]

/-- Claim C3, corrected: the original claim says every engine entry point
rejects a `min_support` outside `[0, 1]`.  In fact only `eclat_algo.py`'s
constructor validates (raising `ValueError` exactly when `min_support` lies
outside `[0, 1]`); `eclat.py`'s `Eclat.__init__` and `apriori.py`'s
`Apriori.__init__` accept every configuration unchanged, so those engines run
on an out-of-range threshold instead of failing fast. -/
theorem claim_C3 (s : ℚ) (m : ℕ) :
    (EclatAlgo.init s m = .error "ValueError" ↔ ¬ (0 ≤ s ∧ s ≤ 1)) ∧
    Eclat.init s m = .ok (s, m) ∧ Apriori.init s m = .ok (s, m) := by
  refine ⟨?_, rfl, rfl⟩
  by_cases h : 0 ≤ s ∧ s ≤ 1
  · rw [EclatAlgo.init, if_pos h]
    simp [h]
  · rw [EclatAlgo.init, if_neg h]
    simp [h]

/-- Counterexample to claim C3 as stated: with `min_support = 2` (outside
`[0, 1]`), `eclat.py`'s and `apriori.py`'s constructors succeed and their
`fit` runs to completion returning a degenerate empty result; only
`eclat_algo.py`'s constructor raises. -/
theorem claim_C3_counterexample :
    Eclat.init (2 : ℚ) 1 = .ok (2, 1) ∧ Apriori.init (2 : ℚ) 1 = .ok (2, 1) ∧
    Eclat.fit (2 : ℚ) 1 [[0]] = ([] : List (List ℕ × ℕ)) ∧
    Apriori.fit (2 : ℚ) 1 [[0]] = ([] : List (List ℕ × ℕ)) ∧
    EclatAlgo.init (2 : ℚ) 1 = .error "ValueError" := by
  exact ⟨rfl, rfl, by decide, by decide, by decide⟩

/-- Claim C5, confirmed: every `(itemset, count)` pair returned by either
engine has `N * min_support ≤ count` (the exact unrounded product, compared
with `≤`) and `count ≤ N`, where `N` is the number of transactions. -/
theorem claim_C5 (ds : List (List α)) (s : ℚ) (m : ℕ) (S : List α) (c : ℕ)
    (htrans : ∀ t ∈ ds, t.Nodup)
    (h : (S, c) ∈ Eclat.fit s m ds ∨ (S, c) ∈ Apriori.fit s m ds) :
    (ds.length : ℚ) * s ≤ (c : ℚ) ∧ c ≤ ds.length := by
  have key : ∀ T : Finset α, c = (coverF ds T).card →
      (ds.length : ℚ) * s ≤ ((coverF ds T).card : ℚ) →
      (ds.length : ℚ) * s ≤ (c : ℚ) ∧ c ≤ ds.length := by
    intro T hc hms
    refine ⟨by rw [hc]; exact hms, ?_⟩
    rw [hc]
    exact coverF_card_le ds T
  rcases h with h | h
  · have hmap : (S.toFinset, c) ∈ (Eclat.fitAux ((ds.length : ℚ) * s) m ds).map
        (fun q : List α × ℕ => (q.1.toFinset, q.2)) :=
      List.mem_map.mpr ⟨(S, c), h, rfl⟩
    obtain ⟨_, _, hms, _, hc⟩ := Eclat.fitAux_mem.mp hmap
    exact key _ hc hms
  · have hmap : (S.toFinset, c) ∈ (Apriori.fitAux ((ds.length : ℚ) * s) m ds).map
        (fun q : List α × ℕ => (q.1.toFinset, q.2)) :=
      List.mem_map.mpr ⟨(S, c), h, rfl⟩
    obtain ⟨_, _, hms, _, hc⟩ := (Apriori.apFitAux_mem htrans).mp hmap
    exact key _ hc hms

/-- Witness for claim C5 at the dataset `[[0,1],[1]]` with
`min_support = 1/2`: the returned pair `([1], 2)` satisfies both bounds. -/
theorem claim_C5_witness :
    ((([[0, 1], [1]] : List (List ℕ)).length : ℚ) * (1 / 2) ≤ ((2 : ℕ) : ℚ)) ∧
      (2 : ℕ) ≤ ([[0, 1], [1]] : List (List ℕ)).length :=
  claim_C5 [[0, 1], [1]] (1 / 2) 1 [1] 2 (by decide) (Or.inl (by decide))

/-- Claim C7, confirmed: for `m ≥ 1` a run with `min_items = m` returns
exactly the pairs of the `min_items = 1` run whose itemsets have at least `m`
items, with the same counts and in the same relative order, for both engines;
`min_items` never enters a pruning decision. -/
theorem claim_C7 (ds : List (List α)) (s : ℚ) (m : ℕ) (hm : 1 ≤ m) :
    Eclat.fit s m ds =
      (Eclat.fit s 1 ds).filter (fun p => decide (m ≤ p.1.length)) ∧
    Apriori.fit s m ds =
      (Apriori.fit s 1 ds).filter (fun p => decide (m ≤ p.1.length)) :=
  ⟨eclat_fit_minItems s m ds, apriori_fit_minItems s m ds⟩

/-- Witness for claim C7 at the dataset `[[0,1],[1]]` with
`min_support = 1/2` and `m = 2`. -/
theorem claim_C7_witness :
    (Eclat.fit (1 / 2 : ℚ) 2 [[0, 1], [1]] =
      (Eclat.fit (1 / 2 : ℚ) 1 ([[0, 1], [1]] : List (List ℕ))).filter
        (fun p => decide (2 ≤ p.1.length))) ∧
    (Apriori.fit (1 / 2 : ℚ) 2 [[0, 1], [1]] =
      (Apriori.fit (1 / 2 : ℚ) 1 ([[0, 1], [1]] : List (List ℕ))).filter
        (fun p => decide (2 ≤ p.1.length))) :=
  claim_C7 ([[0, 1], [1]] : List (List ℕ)) (1 / 2) 2 (by decide)

/-- Claim C8, confirmed: on the canonical four-transaction dataset
`{A,B,C}, {B,C,D}, {A,C,D}, {A,B,D}` (items encoded `A=0, B=1, C=2, D=3`)
with `min_support = 1/2` and `min_items = 1`, both engines return exactly the
four 1-itemsets with count 3 and the six 2-itemsets with count 2, and nothing
else. -/
theorem claim_C8 :
    ((Eclat.fit (1 / 2 : ℚ) 1 [[0, 1, 2], [1, 2, 3], [0, 2, 3], [0, 1, 3]]).map
        (fun q : List ℕ × ℕ => (q.1.toFinset, q.2))).Perm
      [({0}, 3), ({1}, 3), ({2}, 3), ({3}, 3), ({0, 1}, 2), ({0, 2}, 2),
        ({0, 3}, 2), ({1, 2}, 2), ({1, 3}, 2), ({2, 3}, 2)] ∧
    ((Apriori.fit (1 / 2 : ℚ) 1 [[0, 1, 2], [1, 2, 3], [0, 2, 3], [0, 1, 3]]).map
        (fun q : List ℕ × ℕ => (q.1.toFinset, q.2))).Perm
      [({0}, 3), ({1}, 3), ({2}, 3), ({3}, 3), ({0, 1}, 2), ({0, 2}, 2),
        ({0, 3}, 2), ({1, 2}, 2), ({1, 3}, 2), ({2, 3}, 2)] := by
  exact ⟨by decide, by decide⟩

/-- Claim C9, confirmed: neither engine ever emits two pairs with the same
itemset (compared as a set of items): the itemset components of the result
list are pairwise distinct as finite sets. -/
theorem claim_C9 (ds : List (List α)) (s : ℚ) (m : ℕ)
    (htrans : ∀ t ∈ ds, t.Nodup) :
    ((Eclat.fit s m ds).map (fun q : List α × ℕ => q.1.toFinset)).Nodup ∧
    ((Apriori.fit s m ds).map (fun q : List α × ℕ => q.1.toFinset)).Nodup :=
  ⟨Eclat.fitAux_nodup ((ds.length : ℚ) * s) m ds,
   Apriori.apFitAux_nodup ((ds.length : ℚ) * s) m htrans⟩

/-- Witness for claim C9 at the dataset `[[0,1],[1]]` with
`min_support = 1/2` and `min_items = 1`. -/
theorem claim_C9_witness :
    ((Eclat.fit (1 / 2 : ℚ) 1 [[0, 1], [1]]).map
      (fun q : List ℕ × ℕ => q.1.toFinset)).Nodup ∧
    ((Apriori.fit (1 / 2 : ℚ) 1 [[0, 1], [1]]).map
      (fun q : List ℕ × ℕ => q.1.toFinset)).Nodup :=
  claim_C9 [[0, 1], [1]] (1 / 2) 1 (by decide)

/-- Claim C4, confirmed: the Eclat recursion's candidate-list invariant — the
initial sorted candidate list satisfies it, the popped pair's TID-set is the
exact cover of `prefix + [item]`, and it is preserved both into the recursive
call on the intersected candidates and on the remaining list — and
consequently every `(itemset, count)` pair recorded by `Eclat.fit` has
`count` equal to the exact number of transactions containing the itemset. -/
theorem claim_C4 (ds : List (List α)) (s ms : ℚ) (mi : ℕ) (pre : List α)
    (it : α) (tids : Finset ℕ) (rest : List (α × Finset ℕ))
    (hinv : Eclat.Inv ds pre ((it, tids) :: rest)) :
    Eclat.Inv ds [] (Eclat.sortedItems ms ds) ∧
    tids = coverL ds (pre ++ [it]) ∧
    Eclat.Inv ds (pre ++ [it]) (Eclat.nextItems ms tids rest) ∧
    Eclat.Inv ds pre rest ∧
    (∀ S c, (S, c) ∈ Eclat.fit s mi ds → c = nContaining ds S.toFinset) := by
  refine ⟨Eclat.sortedItems_inv ms ds, Eclat.inv_head hinv,
    Eclat.inv_nextItems ms hinv, Eclat.inv_tail hinv, ?_⟩
  intro S c hmem
  have h := Eclat.fitAux_exact S c hmem
  rw [h, coverL, card_coverF]

/-- Witness for claim C4 at the dataset `[[0,1],[1]]`, prefix `[]`, popped
pair `(1, {0,1})` and remaining candidate `(0, {0})`. -/
theorem claim_C4_witness :
    Eclat.Inv [[0, 1], [1]] [] (Eclat.sortedItems 1 [[0, 1], [1]]) ∧
    ({0, 1} : Finset ℕ) = coverL [[0, 1], [1]] [1] ∧
    Eclat.Inv [[0, 1], [1]] [1] (Eclat.nextItems 1 {0, 1} [(0, {0})]) ∧
    Eclat.Inv [[0, 1], [1]] [] [(0, {0})] ∧
    (∀ S c, (S, c) ∈ Eclat.fit (1 / 2 : ℚ) 1 [[0, 1], [1]] →
      c = nContaining [[0, 1], [1]] S.toFinset) :=
  claim_C4 [[0, 1], [1]] (1 / 2) 1 1 [] 1 {0, 1} [(0, {0})]
    (by
      intro p hp
      rcases List.mem_cons.mp hp with rfl | hp
      · decide
      · rcases List.mem_cons.mp hp with rfl | hp
        · decide
        · cases hp)

/-- Claim C2, corrected: in the rule generator's split loop, a missing
antecedent lookup does skip the split (no rule is produced), but a missing
consequent lookup does NOT skip it: the split proceeds with `lift = 0`, and a
rule is still emitted whenever its confidence reaches the threshold. -/
theorem claim_C2 (tbl : List (List α × ℕ)) (total : ℕ) (mc : ℚ)
    (itemset : List α) (sAB : ℚ) (ant : List α) :
    (Utils.lookupGet tbl (Utils.sortKey ant) = none →
      Utils.processSplit tbl total mc itemset sAB ant = .ok none) ∧
    (∀ r, Utils.processSplit tbl total mc itemset sAB ant = .ok (some r) →
      (∃ cA, Utils.lookupGet tbl (Utils.sortKey ant) = some cA) ∧
      (Utils.lookupGet tbl
          (Utils.sortKey (itemset.filter (fun x => decide (x ∉ ant)))) = none →
        r.lift = 0)) :=
  ⟨Utils.processSplit_none, fun _ => Utils.processSplit_some_facts⟩

/-- Counterexample to claim C2 as stated: feeding the rule generator the
collection `[([0,1], 2), ([0], 2)]` (total 2, `min_confidence = 1/2`), the
consequent `[1]` of the split `[0] → [1]` is absent from the lookup, yet the
split is not skipped: the rule is emitted with `lift = 0`. -/
theorem claim_C2_counterexample :
    Utils.generate_recommendation_rules
        ([([0, 1], 2), ([0], 2)] : List (List ℕ × ℕ)) 2 (1 / 2) =
      .ok [⟨[0], [1], 1, 1, 0⟩] ∧
    Utils.lookupGet
      (Utils.support_lookup ([([0, 1], 2), ([0], 2)] : List (List ℕ × ℕ)))
      (Utils.sortKey [1]) = none := by
  exact ⟨by decide, by decide⟩

/-- Claim C10, confirmed: `generate_recommendation_rules` never divides by
zero when `total_transactions ≠ 0` (the confidence and lift divisions are
separately guarded), and also succeeds with `total_transactions = 0` as long
as no supplied itemset has two or more items; but with
`total_transactions = 0` and a size-`≥ 2` itemset present it raises
`ZeroDivisionError`. -/
theorem claim_C10 (fis : List (List α × ℕ)) (total : ℕ) (mc : ℚ) :
    (total ≠ 0 →
      ∃ rs, Utils.generate_recommendation_rules fis total mc = .ok rs) ∧
    ((∀ p ∈ fis, p.1.length < 2) →
      ∃ rs, Utils.generate_recommendation_rules fis total mc = .ok rs) ∧
    ((∃ p ∈ fis, 2 ≤ p.1.length) →
      Utils.generate_recommendation_rules fis 0 mc = .error "ZeroDivisionError") := by
  refine ⟨?_, ?_, ?_⟩
  · intro htot
    obtain ⟨rss, hrss⟩ := Utils.mapM_ok_of_forall
      (fun p : List α × ℕ =>
        Utils.rulesFor (Utils.support_lookup fis) total mc p.1 p.2) fis
      (fun p _ => Utils.rulesFor_ok htot)
    simp only [Utils.generate_recommendation_rules]
    rw [hrss, Utils.except_bind_ok]
    exact ⟨_, rfl⟩
  · intro hsmall
    obtain ⟨rss, hrss⟩ := Utils.mapM_ok_of_forall
      (fun p : List α × ℕ =>
        Utils.rulesFor (Utils.support_lookup fis) total mc p.1 p.2) fis
      (fun p hp => ⟨[], Utils.rulesFor_small (hsmall p hp)⟩)
    simp only [Utils.generate_recommendation_rules]
    rw [hrss, Utils.except_bind_ok]
    exact ⟨_, rfl⟩
  · rintro ⟨p0, hp0, hlen0⟩
    have hall : ∀ p ∈ fis,
        (∃ y, Utils.rulesFor (Utils.support_lookup fis) 0 mc p.1 p.2 = .ok y) ∨
        Utils.rulesFor (Utils.support_lookup fis) 0 mc p.1 p.2 =
          .error "ZeroDivisionError" := by
      intro p hp
      by_cases hl : p.1.length < 2
      · exact Or.inl ⟨[], Utils.rulesFor_small hl⟩
      · exact Or.inr (Utils.rulesFor_zero (by omega))
    have herr := Utils.mapM_error_of_mem _ _ fis hall
      ⟨p0, hp0, Utils.rulesFor_zero hlen0⟩
    simp only [Utils.generate_recommendation_rules]
    rw [herr, Utils.except_bind_error]

/-- Claim C6, confirmed: for `k ≥ 2` and a sorted duplicate-free list `L` of
sorted size-`(k-1)` tuples, `_apriori_gen` returns exactly the candidates
obtained by joining two members `l1 < l2` of `L` that agree on their first
`k-2` items (appending the trailing item of the lexically larger member `l2`)
all of whose size-`(k-1)` sublists lie in `L`; in particular the early
`break` in the inner join loop loses no valid join pair. -/
theorem claim_C6 {k : ℕ} {L : List (List α)} {c : List α}
    (hk : 2 ≤ k) (hL : L.Pairwise (· < ·)) (hlen : ∀ l ∈ L, l.length = k - 1) :
    c ∈ Apriori.apriori_gen L k ↔
      ∃ l1 ∈ L, ∃ l2 ∈ L, List.Lex (· < ·) l1 l2 ∧
        l1.take (k - 2) = l2.take (k - 2) ∧
        c = l1 ++ (l2.drop (k - 2)).take 1 ∧
        ∀ s, s.Sublist c → s.length = k - 1 → s ∈ L := by
  have hclen : ∀ l1 ∈ L, ∀ l2 ∈ L, c = l1 ++ (l2.drop (k - 2)).take 1 →
      c.length = k := by
    intro l1 h1 l2 h2 hc
    have e1 := hlen l1 h1
    have e2 := hlen l2 h2
    rw [hc, List.length_append, List.length_take, List.length_drop]
    omega
  rw [Apriori.mem_apriori_gen hL]
  constructor
  · rintro ⟨l1, h1, l2, h2, hlex, htake, hc, hnis⟩
    exact ⟨l1, h1, l2, h2, hlex, htake, hc,
      (Apriori.not_has_infrequent_subset_iff (by omega)
        (hclen l1 h1 l2 h2 hc)).mp hnis⟩
  · rintro ⟨l1, h1, l2, h2, hlex, htake, hc, hsub⟩
    exact ⟨l1, h1, l2, h2, hlex, htake, hc,
      (Apriori.not_has_infrequent_subset_iff (by omega)
        (hclen l1 h1 l2 h2 hc)).mpr hsub⟩

/-- Witness for claim C6 at `L = [[0], [1]]`, `k = 2`, `c = [0, 1]`. -/
theorem claim_C6_witness :
    [0, 1] ∈ Apriori.apriori_gen ([[0], [1]] : List (List ℕ)) 2 ↔
      ∃ l1 ∈ ([[0], [1]] : List (List ℕ)), ∃ l2 ∈ ([[0], [1]] : List (List ℕ)),
        List.Lex (· < ·) l1 l2 ∧ l1.take (2 - 2) = l2.take (2 - 2) ∧
        [0, 1] = l1 ++ (l2.drop (2 - 2)).take 1 ∧
        ∀ s, s.Sublist [0, 1] → s.length = 2 - 1 →
          s ∈ ([[0], [1]] : List (List ℕ)) :=
  claim_C6 (by decide) (by decide) (by decide)

/-- Claim C1, corrected by requiring `0 < min_support`: under that amendment
(and with set-like transactions) the two engines return the same unordered
collection of `(itemset, count)` pairs, itemsets compared as sets of items.
At `min_support = 0` the engines disagree: Eclat records zero-support
extensions that Apriori never counts. -/
theorem claim_C1 (ds : List (List α)) (s : ℚ) (m : ℕ)
    (htrans : ∀ t ∈ ds, t.Nodup) (hs : 0 < s) :
    ((Eclat.fit s m ds).map (fun q : List α × ℕ => (q.1.toFinset, q.2))).Perm
      ((Apriori.fit s m ds).map (fun q : List α × ℕ => (q.1.toFinset, q.2))) := by
  have hE : ((Eclat.fit s m ds).map
      (fun q : List α × ℕ => (q.1.toFinset, q.2))).Nodup := by
    refine List.Nodup.of_map Prod.fst ?_
    rw [List.map_map]
    exact Eclat.fitAux_nodup ((ds.length : ℚ) * s) m ds
  have hA : ((Apriori.fit s m ds).map
      (fun q : List α × ℕ => (q.1.toFinset, q.2))).Nodup := by
    refine List.Nodup.of_map Prod.fst ?_
    rw [List.map_map]
    exact Apriori.apFitAux_nodup ((ds.length : ℚ) * s) m htrans
  rw [List.perm_ext_iff_of_nodup hE hA]
  rintro ⟨T, c⟩
  rw [show Eclat.fit s m ds = Eclat.fitAux ((ds.length : ℚ) * s) m ds from rfl,
    show Apriori.fit s m ds = Apriori.fitAux ((ds.length : ℚ) * s) m ds from rfl,
    Eclat.fitAux_mem, Apriori.apFitAux_mem htrans]
  constructor
  · rintro ⟨hne, hitems, hms, hmi, hc⟩
    refine ⟨hne, ?_, hms, hmi, hc⟩
    obtain ⟨a, ha⟩ := hne
    obtain ⟨t, ht, _⟩ := mem_allItems.mp (hitems a ha).1
    have hdpos : 0 < ds.length := List.length_pos_of_mem ht
    have hmspos : 0 < (ds.length : ℚ) * s :=
      mul_pos (by exact_mod_cast hdpos) hs
    have hcardpos : (0 : ℚ) < ((coverF ds T).card : ℚ) :=
      lt_of_lt_of_le hmspos hms
    refine Finset.card_pos.mp ?_
    exact_mod_cast hcardpos
  · rintro ⟨hne, hcov, hms, hmi, hc⟩
    refine ⟨hne, ?_, hms, hmi, hc⟩
    intro a ha
    constructor
    · obtain ⟨t, ht, hall⟩ := coverF_nonempty_iff.mp hcov
      exact mem_allItems.mpr ⟨t, ht, hall a ha⟩
    · have hsub : coverF ds T ⊆ coverF ds {a} := by
        apply coverF_anti
        intro x hx
        rw [Finset.mem_singleton] at hx
        rw [hx]
        exact ha
      refine le_trans hms ?_
      exact_mod_cast Finset.card_le_card hsub

/-- Counterexample to claim C1 as stated: with `min_support = 0` on the
dataset `[[0], [1]]` Eclat additionally emits the pair `([0, 1], 0)` (a
zero-support intersection survives the `≥ 0` pruning bound), while Apriori
only ever counts candidates that occur in some transaction, so the two
multisets differ. -/
theorem claim_C1_counterexample :
    ¬ ((Eclat.fit (0 : ℚ) 1 [[0], [1]]).map
        (fun q : List ℕ × ℕ => (q.1.toFinset, q.2))).Perm
      ((Apriori.fit (0 : ℚ) 1 [[0], [1]]).map
        (fun q : List ℕ × ℕ => (q.1.toFinset, q.2))) := by
  decide

/-- Witness for the amended claim C1 at the dataset `[[0,1],[1]]` with
`min_support = 1/2`. -/
theorem claim_C1_witness :
    ((Eclat.fit (1 / 2 : ℚ) 1 [[0, 1], [1]]).map
      (fun q : List ℕ × ℕ => (q.1.toFinset, q.2))).Perm
      ((Apriori.fit (1 / 2 : ℚ) 1 [[0, 1], [1]]).map
        (fun q : List ℕ × ℕ => (q.1.toFinset, q.2))) :=
  claim_C1 [[0, 1], [1]] (1 / 2) 1 (by decide) (by norm_num)

end Claims

end EclatProject
